import Mathlib

/-!
Search server: the ranking and matching engine.

A shallow embedding of `search-server/search_server.h`.

* `std::map<K, V>` is a list of key/value pairs kept in ascending key order,
  `std::set<K>` a list of keys kept in ascending order.  The operations below
  are the ones the header uses (`count`, `at`, `operator[] +=`, `erase`,
  `insert`, in-order traversal).
* `double` values are rationals.  The sums and products that build a relevance
  are exact; the subtraction inside the ranking comparator is rounded to
  binary64 as the hardware does it (`Binary64.roundToDouble`), and the constant
  `accuracy` is the binary64 value of the literal `1e-6`.
* A thrown exception is the `Except.error` result.
-/

namespace StdMap

/-- Lookup used for `m.count(k)` and `m.at(k)`: the value stored under `k`. -/
def find {K V : Type} [DecidableEq K] (k : K) : List (K × V) → Option V
  | [] => none
  | (k', v) :: rest => if k = k' then some v else find k rest

/-- The keys in traversal order. -/
def keys {K V : Type} (m : List (K × V)) : List K := m.map Prod.fst

/-- The access `m[k]` followed by an update of the referenced value with `f`:
a missing key is first inserted at its ordered position with the
value-initialised `dflt`. -/
def modify {K V : Type} [LinearOrder K] (dflt : V) (f : V → V) (k : K) :
    List (K × V) → List (K × V)
  | [] => [(k, f dflt)]
  | (k', v) :: rest =>
    if k < k' then (k, f dflt) :: (k', v) :: rest
    else if k = k' then (k', f v) :: rest
    else (k', v) :: modify dflt f k rest

/-- The statement `m[k] += x` on a `std::map<K, double>`. -/
def addTo {K : Type} [LinearOrder K] (k : K) (x : ℚ) (m : List (K × ℚ)) : List (K × ℚ) :=
  modify 0 (fun v => v + x) k m

/-- The call `m.erase(k)`. -/
def erase {K V : Type} [DecidableEq K] (k : K) (m : List (K × V)) : List (K × V) :=
  m.filter (fun e => decide (e.1 ≠ k))

/-- The call `m.emplace(k, v)`: nothing changes when the key is present. -/
def emplace {K V : Type} [LinearOrder K] (k : K) (v : V) (m : List (K × V)) : List (K × V) :=
  modify v id k m

/-- The representation invariant of `std::map`: keys strictly ascending. -/
def Ascending {K V : Type} [LinearOrder K] (m : List (K × V)) : Prop :=
  (keys m).Pairwise (fun a b => a < b)

/-- The call `s.insert(k)` on a `std::set<K>`. -/
def setInsert {K : Type} [LinearOrder K] (k : K) : List K → List K
  | [] => [k]
  | k' :: rest =>
    if k < k' then k :: k' :: rest
    else if k = k' then k' :: rest
    else k' :: setInsert k rest

end StdMap

/-- Exceptions thrown by the server. -/
inductive Exn where
  | invalid_argument
  | out_of_range
  deriving DecidableEq, Repr

deriving instance DecidableEq for Except

/-- Status of a document (`document.h`). -/
inductive DocumentStatus where
  | ACTUAL
  | IRRELEVANT
  | BANNED
  | REMOVED
  deriving DecidableEq, Repr

/-- A search result record (`document.h`): id, relevance, rating. -/
structure Document where
  id : Int
  relevance : ℚ
  rating : Int
  deriving DecidableEq, Repr

/-- The constant `MAX_RESULT_DOCUMENT_COUNT` (line 16). -/
def MAX_RESULT_DOCUMENT_COUNT : Nat := 5

/-- The constant `accuracy = 1e-6` (line 17): the binary64 value nearest to
`1e-6`, which is `0x1.0c6f7a0b5ed8dp-20 = 4722366482869645 / 2 ^ 72`. -/
def accuracy : ℚ := 4722366482869645 / 4722366482869645213696

/-- The largest distance that rounds below `accuracy`: the midpoint between
`accuracy` and the binary64 value before it, `accuracy - 2 ^ -73`. -/
def tolerance : ℚ := 9444732965739289 / 9444732965739290427392

/-- The struct `SearchServer::DocumentData` (lines 62-65). -/
structure DocumentData where
  rating : Int
  status : DocumentStatus
  deriving DecidableEq, Repr

/-- The struct `SearchServer::Query` (lines 83-86): two `std::set<std::string>`. -/
structure Query where
  plus_words : List String
  minus_words : List String
  deriving DecidableEq, Repr

/-- The data members of `SearchServer` (lines 67-75). -/
structure SearchServer where
  stop_words_ : List String
  word_to_document_freqs_ : List (String × List (Int × ℚ))
  document_to_word_freqs_ : List (Int × List (String × ℚ))
  documents_ : List (Int × DocumentData)
  document_ids_ : List Int
  deriving DecidableEq, Repr

/-- A document predicate `(document_id, status, rating) -> bool`. -/
abbrev DocumentPredicate := Int → DocumentStatus → Int → Bool

namespace SearchServer

/-- Inner loop of the plus-word pass (lines 143-148): for each posting of the
word, look the document up with `documents_.at` and, when the predicate holds,
add `term_freq * inverse_document_freq` to its relevance. -/
def scorePostings (s : SearchServer) (document_predicate : DocumentPredicate)
    (inverse_document_freq : ℚ) :
    List (Int × ℚ) → List (Int × ℚ) → Except Exn (List (Int × ℚ))
  | [], document_to_relevance => .ok document_to_relevance
  | (document_id, term_freq) :: rest, document_to_relevance =>
    match StdMap.find document_id s.documents_ with
    | none => .error Exn.out_of_range
    | some document_data =>
      scorePostings s document_predicate inverse_document_freq rest
        (if document_predicate document_id document_data.status document_data.rating then
          StdMap.addTo document_id (term_freq * inverse_document_freq) document_to_relevance
        else document_to_relevance)

/-- The plus-word pass (lines 137-149).  `idf` stands for
`ComputeWordInverseDocumentFreq`, which the header only declares. -/
def scorePlusWords (idf : String → ℚ) (s : SearchServer)
    (document_predicate : DocumentPredicate) :
    List String → List (Int × ℚ) → Except Exn (List (Int × ℚ))
  | [], document_to_relevance => .ok document_to_relevance
  | word :: rest, document_to_relevance =>
    match StdMap.find word s.word_to_document_freqs_ with
    | none => scorePlusWords idf s document_predicate rest document_to_relevance
    | some postings =>
      match scorePostings s document_predicate (idf word) postings document_to_relevance with
      | .error e => .error e
      | .ok acc => scorePlusWords idf s document_predicate rest acc

/-- Inner loop of the minus-word pass (lines 155-157). -/
def erasePostings : List (Int × ℚ) → List (Int × ℚ) → List (Int × ℚ)
  | [], document_to_relevance => document_to_relevance
  | (document_id, _) :: rest, document_to_relevance =>
    erasePostings rest (StdMap.erase document_id document_to_relevance)

/-- The minus-word pass (lines 151-158). -/
def eraseMinusWords (s : SearchServer) : List String → List (Int × ℚ) → List (Int × ℚ)
  | [], document_to_relevance => document_to_relevance
  | word :: rest, document_to_relevance =>
    match StdMap.find word s.word_to_document_freqs_ with
    | none => eraseMinusWords s rest document_to_relevance
    | some postings => eraseMinusWords s rest (erasePostings postings document_to_relevance)

/-- The emitting loop (lines 160-165). -/
def emitDocuments (s : SearchServer) : List (Int × ℚ) → Except Exn (List Document)
  | [] => .ok []
  | (document_id, relevance) :: rest =>
    match StdMap.find document_id s.documents_ with
    | none => .error Exn.out_of_range
    | some document_data =>
      match emitDocuments s rest with
      | .error e => .error e
      | .ok matched_documents =>
        .ok ({ id := document_id, relevance := relevance, rating := document_data.rating }
              :: matched_documents)

/-- The method `SearchServer::FindAllDocuments` (lines 131-168). -/
def FindAllDocuments (idf : String → ℚ) (s : SearchServer) (query : Query)
    (document_predicate : DocumentPredicate) : Except Exn (List Document) :=
  match scorePlusWords idf s document_predicate query.plus_words [] with
  | .error e => .error e
  | .ok document_to_relevance =>
    emitDocuments s (eraseMinusWords s query.minus_words document_to_relevance)

end SearchServer


/-! ## Rounding to binary64 -/

namespace Binary64

/-- The power of two with exponent `e`. -/
def pow2 (e : ℤ) : ℚ := (2 : ℚ) ^ e

/-- Position of the leading binary digit of `n`, found by at most `fuel`
halvings. -/
def log2Fuel : Nat → Nat → Nat
  | 0, _ => 0
  | fuel + 1, n => if n < 2 then 0 else log2Fuel fuel (n / 2) + 1

/-- Position of the leading binary digit of `n`: for positive `n` the `k` with
`2 ^ k ≤ n < 2 ^ (k + 1)`. -/
def log2 (n : Nat) : Nat := log2Fuel n n

/-- The binary exponent of a positive rational `x`: the `e` with
`2 ^ e ≤ x < 2 ^ (e + 1)`. -/
def binade (x : ℚ) : ℤ :=
  let e0 : ℤ := (log2 x.num.natAbs : ℤ) - (log2 x.den : ℤ)
  if pow2 e0 ≤ x then e0 else e0 - 1

/-- Rounding to the nearest integer, a tie going to the even neighbour. -/
def roundHalfEven (q : ℚ) : ℤ :=
  if q - ⌊q⌋ < 1 / 2 then ⌊q⌋
  else if 1 / 2 < q - ⌊q⌋ then ⌊q⌋ + 1
  else if ⌊q⌋ % 2 = 0 then ⌊q⌋ else ⌊q⌋ + 1

/-- The binary64 value nearest to a non-negative `x` (round to nearest, ties to
even): 53 significant bits in the binade of `x`, and multiples of `2 ^ -1074`
below the normal range. -/
def roundMagnitude (x : ℚ) : ℚ :=
  if x = 0 then 0
  else (roundHalfEven (x / pow2 (max (binade x) (-1022) - 52)) : ℚ)
    * pow2 (max (binade x) (-1022) - 52)

/-- The result of a `double` operation whose exact result is `x`: the sign of
`x` with the rounded magnitude.  Beyond the finite range, where the hardware
gives an infinity, the value here stays finite and as large; the comparator's
test `< accuracy` is false for both. -/
def roundToDouble (x : ℚ) : ℚ :=
  if x < 0 then -roundMagnitude (-x) else roundMagnitude x

end Binary64

/-! ## Ranking: the comparator, `std::sort`, `FindTopDocuments` -/

/-- The comparator lambda handed to `sort` (lines 115-121): `true` when `lhs`
has to come before `rhs`.  The difference of the two relevances is a `double`
subtraction, so its exact value is rounded before `std::abs` and the test
against `accuracy`. -/
def compareDocuments (lhs rhs : Document) : Bool :=
  if |Binary64.roundToDouble (lhs.relevance - rhs.relevance)| < accuracy then
    decide (lhs.rating > rhs.rating)
  else
    decide (lhs.relevance > rhs.relevance)

namespace StdSort

/-- The loop of `__unguarded_linear_insert`: `val` is held out of the range,
`revLeft` are the elements left of the hole (nearest first) and `right` the
elements already shifted one place to the right of it. -/
def unguarded_linear_insert {α : Type} (comp : α → α → Bool) (val : α) :
    List α → List α → List α
  | [], right => val :: right
  | next :: revLeft, right =>
    if comp val next then unguarded_linear_insert comp val revLeft (next :: right)
    else (next :: revLeft).reverse ++ val :: right

/-- One round of `__insertion_sort`: the element `val` enters the sorted range
`sorted` in front of it.  It goes to the very front when it compares before the
first element, and is otherwise moved left from the back. -/
def linear_insert {α : Type} (comp : α → α → Bool) (sorted : List α) (val : α) : List α :=
  match sorted with
  | [] => [val]
  | first :: _ =>
    if comp val first then val :: sorted
    else unguarded_linear_insert comp val sorted.reverse []

/-- The call `std::sort(first, last, comp)`, as the insertion sort that the
library runs on a range (for libstdc++: every range of at most 16 elements);
the elements enter one by one, left to right.  On longer ranges the library
partitions first, which can change the order among records the comparator
leaves unordered; the general statements below rest only on the result being a
permutation of the range, ordered whenever the comparator is a strict weak
ordering on it. -/
def sort {α : Type} (comp : α → α → Bool) (range : List α) : List α :=
  range.foldl (linear_insert comp) []

end StdSort

namespace SearchServer

/-- The method `SearchServer::FindTopDocuments` with a predicate (lines 106-129).
`ParseQuery` and `idf` stand for the methods `ParseQuery` and
`ComputeWordInverseDocumentFreq`, which the header only declares. -/
def FindTopDocuments (ParseQuery : String → Except Exn Query) (idf : String → ℚ)
    (s : SearchServer) (raw_query : String) (document_predicate : DocumentPredicate) :
    Except Exn (List Document) :=
  match ParseQuery raw_query with
  | .error e => .error e
  | .ok query =>
    match FindAllDocuments idf s query document_predicate with
    | .error e => .error e
    | .ok matched_documents =>
      let sorted := StdSort.sort compareDocuments matched_documents
      if sorted.length > MAX_RESULT_DOCUMENT_COUNT then
        .ok (sorted.take MAX_RESULT_DOCUMENT_COUNT)
      else
        .ok sorted

/-- Traversal from `begin()` to `end()` (lines 53-59): the elements of the
`std::set<int> document_ids_` in the order of the set. -/
def traverse (s : SearchServer) : List Int := s.document_ids_

end SearchServer

/-! ## Construction and ingestion -/

namespace SearchServer

/-- Modelled from the spec: `IsValidWord` is declared in the header and defined
elsewhere; a valid word holds no whitespace and no control character (code
below 0x20). -/
def IsValidWord (word : String) : Bool :=
  word.data.all (fun c => !c.isWhitespace && decide (¬ c.toNat < 32))

/-- Modelled from the spec: `MakeUniqueNonEmptyStrings` of
`string_processing.h`, which is not part of the sources; the words are
collected into a `std::set<std::string>`, empty entries discarded. -/
def MakeUniqueNonEmptyStrings (strings : List String) : List String :=
  strings.foldl (fun non_empty_strings str =>
    if str = "" then non_empty_strings else StdMap.setInsert str non_empty_strings) []

/-- The constructor `SearchServer(const StringContainer& stop_words)`
(lines 21-28); all other members start empty. -/
def new (stop_words : List String) : Except Exn SearchServer :=
  let stop_words_ := MakeUniqueNonEmptyStrings stop_words
  if ¬ stop_words_.all IsValidWord then
    .error Exn.invalid_argument
  else
    .ok { stop_words_ := stop_words_
          word_to_document_freqs_ := []
          document_to_word_freqs_ := []
          documents_ := []
          document_ids_ := [] }

/-- Splitting loop of `SplitIntoWords`: `word` is the reversed current token. -/
def splitChars : List Char → List Char → List String
  | [], word => if word = [] then [] else [String.mk word.reverse]
  | c :: rest, word =>
    if c.isWhitespace then
      if word = [] then splitChars rest [] else String.mk word.reverse :: splitChars rest []
    else splitChars rest (c :: word)

/-- Modelled from the spec: `SplitIntoWords` of `string_processing.h`, which is
not part of the sources; the text is split on runs of whitespace. -/
def SplitIntoWords (text : String) : List String := splitChars text.data []

/-- Modelled from the spec: `SplitIntoWordsNoStop`, declared in the header and
defined elsewhere; tokenizes, fails on an invalid word, discards stop words. -/
def SplitIntoWordsNoStop (s : SearchServer) (text : String) : Except Exn (List String) :=
  let words := SplitIntoWords text
  if ¬ words.all IsValidWord then .error Exn.invalid_argument
  else .ok (words.filter (fun word => decide (word ∉ s.stop_words_)))

/-- Modelled from the spec: `ComputeAverageRating`, declared in the header and
defined elsewhere; the mean of the ratings rounded toward zero, `0` for an
empty list. -/
def ComputeAverageRating (ratings : List Int) : Int :=
  if ratings = [] then 0 else Int.tdiv ratings.sum ratings.length

/-- Modelled from the spec: the per-word index update of `AddDocument`; both
the inverted and the forward index gain `inv_word_count` for the pair. -/
def indexWord (document_id : Int) (inv_word_count : ℚ) (s : SearchServer) (word : String) :
    SearchServer :=
  { s with
    word_to_document_freqs_ :=
      StdMap.modify [] (StdMap.addTo document_id inv_word_count) word s.word_to_document_freqs_
    document_to_word_freqs_ :=
      StdMap.modify [] (StdMap.addTo word inv_word_count) document_id s.document_to_word_freqs_ }

/-- Modelled from the spec: `AddDocument`, declared in the header (lines 33-34)
and defined elsewhere.  It fails with `invalid_argument` for a negative id, an
id already present, or an invalid word; otherwise it indexes the non-stop
words, stores rating and status, and adds the id to the id set.  The id set is
the member `std::set<int> document_ids_` of line 75, so the id enters it with
the set's `insert`. -/
def AddDocument (s : SearchServer) (document_id : Int) (document : String)
    (status : DocumentStatus) (ratings : List Int) : Except Exn SearchServer :=
  if document_id < 0 ∨ (StdMap.find document_id s.documents_).isSome then
    .error Exn.invalid_argument
  else
    match SplitIntoWordsNoStop s document with
    | .error e => .error e
    | .ok words =>
      let inv_word_count : ℚ := 1 / words.length
      let indexed := words.foldl (indexWord document_id inv_word_count) s
      .ok { indexed with
            documents_ :=
              StdMap.emplace document_id ⟨ComputeAverageRating ratings, status⟩
                indexed.documents_
            document_ids_ := StdMap.setInsert document_id indexed.document_ids_ }

/-- A document handed to `AddDocument`: id, text, status, ratings. -/
structure Addition where
  document_id : Int
  document : String
  status : DocumentStatus
  ratings : List Int

/-- A sequence of `AddDocument` calls, stopping at the first failure. -/
def addAll (s : SearchServer) : List Addition → Except Exn SearchServer
  | [] => .ok s
  | a :: rest =>
    match AddDocument s a.document_id a.document a.status a.ratings with
    | .error e => .error e
    | .ok s' => addAll s' rest

end SearchServer

/-! ## Vocabulary of the statements -/

namespace SearchServer

/-- Document `document_id` occurs in the inverted-index postings of `word`. -/
def posted (s : SearchServer) (word : String) (document_id : Int) : Bool :=
  match StdMap.find word s.word_to_document_freqs_ with
  | none => false
  | some postings => (StdMap.find document_id postings).isSome

/-- The term frequency stored for `word` in `document_id` (`0` when absent). -/
def termFreq (s : SearchServer) (word : String) (document_id : Int) : ℚ :=
  match StdMap.find word s.word_to_document_freqs_ with
  | none => 0
  | some postings => (StdMap.find document_id postings).getD 0

/-- The predicate evaluated on the stored status and rating of `document_id`
(`false` for an id without metadata). -/
def passes (s : SearchServer) (document_predicate : DocumentPredicate) (document_id : Int) :
    Bool :=
  match StdMap.find document_id s.documents_ with
  | none => false
  | some document_data => document_predicate document_id document_data.status document_data.rating

/-- Every posting list of the inverted index holds each document id once, as
a `std::map<int, double>` does. -/
def PostingsDistinct (s : SearchServer) : Prop :=
  ∀ e ∈ s.word_to_document_freqs_, (StdMap.keys e.2).Nodup

instance (s : SearchServer) : Decidable (PostingsDistinct s) := by
  unfold PostingsDistinct; infer_instance

/-- Every document id occurring in a posting list is a key of `documents_`. -/
def PostedHaveMetadata (s : SearchServer) : Prop :=
  ∀ e ∈ s.word_to_document_freqs_, ∀ d ∈ StdMap.keys e.2,
    (StdMap.find d s.documents_).isSome = true

instance (s : SearchServer) : Decidable (PostedHaveMetadata s) := by
  unfold PostedHaveMetadata; infer_instance

/-- The id set and the metadata map hold the same ids, and the id set is
ascending. -/
def IdsConsistent (s : SearchServer) : Prop :=
  s.document_ids_.Pairwise (fun a b => a < b) ∧
  ∀ x, x ∈ s.document_ids_ ↔ x ∈ StdMap.keys s.documents_

end SearchServer

/-- Record `a` appears before record `b` in the sequence `l`. -/
def appearsBefore (a b : Document) (l : List Document) : Prop := List.Sublist [a, b] l

instance (a b : Document) (l : List Document) : Decidable (appearsBefore a b l) := by
  unfold appearsBefore; infer_instance

/-- The comparator is a strict weak ordering on the records of `l`: it is
transitive and so is its incomparability relation (irreflexivity and asymmetry
hold for every pair of records). -/
def StrictWeakOn (comp : Document → Document → Bool) (l : List Document) : Prop :=
  (∀ a ∈ l, ∀ b ∈ l, ∀ c ∈ l, comp a b = true → comp b c = true → comp a c = true) ∧
  (∀ a ∈ l, ∀ b ∈ l, ∀ c ∈ l, comp a b = false → comp b a = false →
      comp b c = false → comp c b = false → comp a c = false ∧ comp c a = false)

instance (comp : Document → Document → Bool) (l : List Document) :
    Decidable (StrictWeakOn comp l) := by
  unfold StrictWeakOn; infer_instance

/-! ## Concrete servers and queries used by the statements -/

namespace Examples

/-- The predicate of the overload without a status: `status == ACTUAL`. -/
def actualOnly : DocumentPredicate := fun _ status _ => decide (status = DocumentStatus.ACTUAL)

/-- The server holding `(1, "cat dog", ACTUAL, [5])` and `(2, "cat", ACTUAL, [3])`. -/
def catDogServer : SearchServer :=
  { stop_words_ := []
    word_to_document_freqs_ := [("cat", [(1, 1 / 2), (2, 1)]), ("dog", [(1, 1 / 2)])]
    document_to_word_freqs_ := [(1, [("cat", 1 / 2), ("dog", 1 / 2)]), (2, [("cat", 1)])]
    documents_ := [(1, ⟨5, .ACTUAL⟩), (2, ⟨3, .ACTUAL⟩)]
    document_ids_ := [1, 2] }

/-- Inverse document frequencies on `catDogServer`: `ln (2 / 2) = 0` for "cat",
`ln (2 / 1)` (as 0.693147) for "dog". -/
def catDogIdf : String → ℚ := fun word => if word = "dog" then 693147 / 1000000 else 0

/-- The parsed query `"cat -dog"`. -/
def catMinusDog : Query := { plus_words := ["cat"], minus_words := ["dog"] }

/-- A parser that knows one raw query and its parsed form. -/
def parseAs (known : String) (query : Query) : String → Except Exn Query := fun raw_query =>
  if raw_query = known then .ok query else .error Exn.invalid_argument

/-- A server of four documents: documents 1, 2 and 3 hold "cat" with the term
frequencies `tf1`, `tf2`, `tf3` among copies of "mat" and have the ratings
`rating1`, `rating2`, `rating3`; document 4 is "dog". -/
def threeCats (tf1 tf2 tf3 : ℚ) (rating1 rating2 rating3 : Int) : SearchServer :=
  { stop_words_ := []
    word_to_document_freqs_ :=
      [("cat", [(1, tf1), (2, tf2), (3, tf3)]),
       ("dog", [(4, 1)]),
       ("mat", [(1, 1 - tf1), (2, 1 - tf2), (3, 1 - tf3)])]
    document_to_word_freqs_ :=
      [(1, [("cat", tf1), ("mat", 1 - tf1)]),
       (2, [("cat", tf2), ("mat", 1 - tf2)]),
       (3, [("cat", tf3), ("mat", 1 - tf3)]),
       (4, [("dog", 1)])]
    documents_ :=
      [(1, ⟨rating1, .ACTUAL⟩), (2, ⟨rating2, .ACTUAL⟩), (3, ⟨rating3, .ACTUAL⟩),
       (4, ⟨0, .ACTUAL⟩)]
    document_ids_ := [1, 2, 3, 4] }

/-- Inverse document frequencies on a `threeCats` server: `ln (4 / 1)` (as
1.386294) for "dog", `ln (4 / 3)` (as 0.287682) for "cat" and "mat". -/
def threeCatsIdf : String → ℚ := fun word =>
  if word = "dog" then 1386294 / 1000000 else 287682 / 1000000

/-- Documents of 602, 601 and 600 words with one "cat" each: relevance rises
and rating falls with the id. -/
def risingServer : SearchServer := threeCats (1 / 602) (1 / 601) (1 / 600) 3 2 1

/-- Documents of 601, 600 and 602 words with one "cat" each, rated 2, 1, 3. -/
def mixedServer : SearchServer := threeCats (1 / 601) (1 / 600) (1 / 602) 2 1 3

/-- The parsed query `"cat"`. -/
def catQuery : Query := { plus_words := ["cat"], minus_words := [] }

/-- The predicate selecting the documents with the ids `a` and `b`. -/
def onlyIds (a b : Int) : DocumentPredicate := fun document_id _ _ =>
  decide (document_id = a ∨ document_id = b)

/-- A server of eight documents: document `k` of 1 to 7 holds "cat" with term
frequency `1 / (8 - k)` and has rating `k`; document 8 is "dog". -/
def sevenCats : SearchServer :=
  { stop_words_ := []
    word_to_document_freqs_ :=
      [("cat", [(1, 1 / 7), (2, 1 / 6), (3, 1 / 5), (4, 1 / 4), (5, 1 / 3), (6, 1 / 2),
                (7, 1)]),
       ("dog", [(8, 1)]),
       ("mat", [(1, 6 / 7), (2, 5 / 6), (3, 4 / 5), (4, 3 / 4), (5, 2 / 3), (6, 1 / 2)])]
    document_to_word_freqs_ :=
      [(1, [("cat", 1 / 7), ("mat", 6 / 7)]), (2, [("cat", 1 / 6), ("mat", 5 / 6)]),
       (3, [("cat", 1 / 5), ("mat", 4 / 5)]), (4, [("cat", 1 / 4), ("mat", 3 / 4)]),
       (5, [("cat", 1 / 3), ("mat", 2 / 3)]), (6, [("cat", 1 / 2), ("mat", 1 / 2)]),
       (7, [("cat", 1)]), (8, [("dog", 1)])]
    documents_ :=
      [(1, ⟨1, .ACTUAL⟩), (2, ⟨2, .ACTUAL⟩), (3, ⟨3, .ACTUAL⟩), (4, ⟨4, .ACTUAL⟩),
       (5, ⟨5, .ACTUAL⟩), (6, ⟨6, .ACTUAL⟩), (7, ⟨7, .ACTUAL⟩), (8, ⟨8, .ACTUAL⟩)]
    document_ids_ := [1, 2, 3, 4, 5, 6, 7, 8] }

/-- Inverse document frequencies on `sevenCats`: `ln (8 / 7)` (as 0.133531)
for "cat", `ln (8 / 6)` (as 0.287682) for "mat", `ln 8` (as 2.079442) for
"dog". -/
def sevenCatsIdf : String → ℚ := fun word =>
  if word = "cat" then 133531 / 1000000
  else if word = "mat" then 287682 / 1000000 else 2079442 / 1000000

/-- The server constructed without stop words. -/
def emptyServer : SearchServer :=
  { stop_words_ := [], word_to_document_freqs_ := [], document_to_word_freqs_ := [],
    documents_ := [], document_ids_ := [] }

/-- The server holding `(1, "cat", ACTUAL, [5])` and `(2, "dog", ACTUAL, [3])`. -/
def catAndDog : SearchServer :=
  { stop_words_ := []
    word_to_document_freqs_ := [("cat", [(1, 1)]), ("dog", [(2, 1)])]
    document_to_word_freqs_ := [(1, [("cat", 1)]), (2, [("dog", 1)])]
    documents_ := [(1, ⟨5, .ACTUAL⟩), (2, ⟨3, .ACTUAL⟩)]
    document_ids_ := [1, 2] }

/-- A new server without stop words to which document 2 and then document 1
are added. -/
def twoThenOne : Except Exn SearchServer :=
  match SearchServer.new [] with
  | .error e => .error e
  | .ok s => SearchServer.addAll s [⟨2, "dog", .ACTUAL, [3]⟩, ⟨1, "cat", .ACTUAL, [5]⟩]

end Examples

/-! ## Construction from a text -/

namespace SearchServer

/-- The constructor `SearchServer(const std::string& stop_words_text)`
(lines 30-31): it delegates to the container constructor with the words of the
text. -/
def newFromText (stop_words_text : String) : Except Exn SearchServer :=
  SearchServer.new (SplitIntoWords stop_words_text)

end SearchServer

namespace Examples

/-- A server whose postings of "cat" name document 9, for which no metadata is
stored. -/
def orphanServer : SearchServer :=
  { stop_words_ := []
    word_to_document_freqs_ := [("cat", [(1, 1 / 2), (9, 1)])]
    document_to_word_freqs_ := [(1, [("cat", 1 / 2)])]
    documents_ := [(1, ⟨5, .ACTUAL⟩)]
    document_ids_ := [1] }

end Examples

/-! ## Lemmas on the containers -/

namespace StdMap

theorem mem_keys_modify {K V : Type} [LinearOrder K] (dflt : V) (f : V → V) (k a : K)
    (m : List (K × V)) : a ∈ keys (modify dflt f k m) ↔ a = k ∨ a ∈ keys m := by
  induction m with
  | nil => simp [modify, keys]
  | cons e rest ih =>
    obtain ⟨k', v⟩ := e
    unfold modify
    by_cases h1 : k < k'
    · simp [h1, keys]
    · by_cases h2 : k = k'
      · subst h2; simp [keys]
      · simp only [h1, h2, if_false]
        simp only [keys, List.map_cons, List.mem_cons] at ih ⊢
        rw [ih]; tauto

theorem mem_keys_erase {K V : Type} [DecidableEq K] (k a : K) (m : List (K × V)) :
    a ∈ keys (erase k m) ↔ a ≠ k ∧ a ∈ keys m := by
  simp only [keys, erase, List.mem_map, List.mem_filter, decide_eq_true_eq]
  constructor
  · rintro ⟨e, ⟨he, hk⟩, rfl⟩; exact ⟨hk, e, he, rfl⟩
  · rintro ⟨hk, e, he, rfl⟩; exact ⟨e, ⟨he, hk⟩, rfl⟩

theorem find_isSome_iff {K V : Type} [DecidableEq K] (k : K) (m : List (K × V)) :
    (find k m).isSome = true ↔ k ∈ keys m := by
  induction m with
  | nil => simp [find, keys]
  | cons e rest ih =>
    obtain ⟨k', v⟩ := e
    unfold find
    by_cases h : k = k'
    · simp [h, keys]
    · simp only [h, if_false, ih]; simp [keys, h]

theorem find_eq_none_iff {K V : Type} [DecidableEq K] (k : K) (m : List (K × V)) :
    find k m = none ↔ k ∉ keys m := by
  rw [← find_isSome_iff]; cases find k m <;> simp

theorem find_some_mem {K V : Type} [DecidableEq K] (k : K) (v : V) (m : List (K × V))
    (h : find k m = some v) : (k, v) ∈ m := by
  induction m with
  | nil => simp [find] at h
  | cons e rest ih =>
    obtain ⟨k', v'⟩ := e
    unfold find at h
    by_cases hk : k = k'
    · simp only [hk, if_true, Option.some.injEq] at h
      subst hk; subst h; exact List.mem_cons_self _ _
    · simp only [hk, if_false] at h
      exact List.mem_cons_of_mem _ (ih h)

theorem find_of_mem_nodup {K V : Type} [DecidableEq K] (k : K) (v : V) (m : List (K × V))
    (hnd : (keys m).Nodup) (h : (k, v) ∈ m) : find k m = some v := by
  induction m with
  | nil => simp at h
  | cons e rest ih =>
    obtain ⟨k', v'⟩ := e
    simp only [keys, List.map_cons, List.nodup_cons] at hnd
    unfold find
    rcases List.mem_cons.1 h with h1 | h1
    · cases h1; simp
    · have hne : k ≠ k' := by
        rintro rfl
        exact hnd.1 (List.mem_map.2 ⟨(k, v), h1, rfl⟩)
      simp only [hne, if_false]
      exact ih hnd.2 h1

theorem Ascending.nodup {K V : Type} [LinearOrder K] {m : List (K × V)} (h : Ascending m) :
    (keys m).Nodup :=
  List.Pairwise.imp (fun hab => ne_of_lt hab) h

theorem find_modify {K V : Type} [LinearOrder K] (dflt : V) (f : V → V) (k a : K)
    (m : List (K × V)) (hm : Ascending m) :
    find a (modify dflt f k m) =
      if a = k then some (f ((find k m).getD dflt)) else find a m := by
  induction m with
  | nil => simp [modify, find]
  | cons e rest ih =>
    obtain ⟨k', v⟩ := e
    have hm' : (∀ x ∈ keys rest, k' < x) ∧ Ascending rest := by
      simpa [Ascending, keys] using hm
    unfold modify
    by_cases h1 : k < k'
    · have hnone : find k ((k', v) :: rest) = none := by
        rw [find_eq_none_iff]
        simp only [keys, List.map_cons, List.mem_cons, not_or]
        refine ⟨ne_of_lt h1, ?_⟩
        intro hmem
        exact lt_asymm h1 (hm'.1 k hmem)
      simp only [h1, if_true, hnone, Option.getD_none]
      by_cases ha : a = k
      · simp [find, ha]
      · simp only [ha, if_false]
        conv_lhs => unfold find
        simp [ha]
    · by_cases h2 : k = k'
      · subst h2
        simp only [lt_irrefl, if_false, if_true]
        by_cases ha : a = k
        · subst ha; simp [find]
        · simp [find, ha]
      · simp only [h1, h2, if_false]
        conv_lhs => unfold find
        by_cases ha' : a = k'
        · have hak : a ≠ k := by rw [ha']; exact fun h => h2 h.symm
          have hk2 : ¬ k' = k := fun h => h2 h.symm
          simp [ha', hk2, find]
        · simp only [ha', if_false]
          rw [ih hm'.2]
          by_cases ha : a = k
          · simp [ha, find, h2]
          · simp [ha, find, ha']

theorem ascending_modify {K V : Type} [LinearOrder K] (dflt : V) (f : V → V) (k : K)
    (m : List (K × V)) (hm : Ascending m) : Ascending (modify dflt f k m) := by
  induction m with
  | nil => simp [modify, Ascending, keys]
  | cons e rest ih =>
    obtain ⟨k', v⟩ := e
    have hm' : (∀ x ∈ keys rest, k' < x) ∧ Ascending rest := by
      simpa [Ascending, keys] using hm
    unfold modify
    by_cases h1 : k < k'
    · simp only [h1, if_true]
      unfold Ascending at hm ⊢
      simp only [keys, List.map_cons, List.pairwise_cons, List.mem_cons] at hm ⊢
      refine ⟨?_, hm⟩
      rintro x (rfl | hx)
      · exact h1
      · exact lt_trans h1 (hm.1 x hx)
    · by_cases h2 : k = k'
      · subst h2
        simp only [lt_irrefl, if_false, if_true]
        simpa [Ascending, keys] using hm
      · simp only [h1, h2, if_false]
        have hlt : k' < k := lt_of_le_of_ne (not_lt.1 h1) (fun h => h2 h.symm)
        have ih' := ih hm'.2
        unfold Ascending at ih' ⊢
        have hk : keys ((k', v) :: modify dflt f k rest) = k' :: keys (modify dflt f k rest) := rfl
        rw [hk, List.pairwise_cons]
        refine ⟨?_, ih'⟩
        intro x hx
        rcases (mem_keys_modify dflt f k x rest).1 hx with rfl | hx'
        · exact hlt
        · exact hm'.1 x hx'

theorem find_erase {K V : Type} [DecidableEq K] (k a : K) (m : List (K × V)) :
    find a (erase k m) = if a = k then none else find a m := by
  induction m with
  | nil => simp [erase, find]
  | cons e rest ih =>
    obtain ⟨k', v⟩ := e
    unfold erase at ih ⊢
    by_cases hk : k' = k
    · subst hk
      simp only [List.filter_cons, ne_eq, not_true_eq_false, decide_False]
      simp only [Bool.false_eq_true, if_false]
      rw [ih]
      by_cases ha : a = k'
      · simp [ha]
      · simp [ha, find]
    · have hd : decide ((k', v).1 ≠ k) = true := by simpa using hk
      rw [List.filter_cons]
      simp only [hd, if_true]
      conv_lhs => unfold find
      by_cases ha' : a = k'
      · subst ha'; simp [hk, find]
      · simp only [ha', if_false]
        rw [ih]
        by_cases ha : a = k
        · simp [ha]
        · simp [ha, find, ha']

theorem ascending_erase {K V : Type} [LinearOrder K] (k : K) (m : List (K × V))
    (hm : Ascending m) : Ascending (erase k m) := by
  unfold Ascending keys erase at *
  exact List.Pairwise.sublist ((List.filter_sublist m).map Prod.fst) hm

end StdMap

/-! ## Lemmas on `FindAllDocuments` -/

namespace SearchServer

theorem posted_iff (s : SearchServer) (word : String) (document_id : Int) :
    posted s word document_id = true ↔
      ∃ postings, StdMap.find word s.word_to_document_freqs_ = some postings ∧
        document_id ∈ StdMap.keys postings := by
  unfold posted
  cases h : StdMap.find word s.word_to_document_freqs_ with
  | none => simp
  | some postings => simp [StdMap.find_isSome_iff]

theorem scorePostings_keys (s : SearchServer) (p : DocumentPredicate) (x : ℚ)
    (postings : List (Int × ℚ)) :
    ∀ acc acc', scorePostings s p x postings acc = .ok acc' →
      ∀ d, d ∈ StdMap.keys acc' ↔
        d ∈ StdMap.keys acc ∨ (d ∈ StdMap.keys postings ∧ passes s p d = true) := by
  induction postings with
  | nil =>
    intro acc acc' h d
    simp only [scorePostings, Except.ok.injEq] at h
    subst h; simp [StdMap.keys]
  | cons e rest ih =>
    obtain ⟨d0, tf0⟩ := e
    intro acc acc' h d
    unfold scorePostings at h
    cases hd : StdMap.find d0 s.documents_ with
    | none => rw [hd] at h; cases h
    | some data =>
      rw [hd] at h
      simp only at h
      rw [ih _ _ h d]
      have hp : passes s p d0 = p d0 data.status data.rating := by
        unfold passes; rw [hd]
      by_cases hpd : p d0 data.status data.rating = true
      · simp only [hpd, if_true, StdMap.addTo, StdMap.mem_keys_modify]
        simp only [StdMap.keys, List.map_cons, List.mem_cons]
        constructor
        · rintro (h1 | h1)
          · rcases h1 with h1 | h1
            · subst h1; exact Or.inr ⟨Or.inl rfl, by rw [hp, hpd]⟩
            · exact Or.inl h1
          · exact Or.inr ⟨Or.inr h1.1, h1.2⟩
        · rintro (h1 | ⟨h1 | h1, h2⟩)
          · exact Or.inl (Or.inr h1)
          · exact Or.inl (Or.inl h1)
          · exact Or.inr ⟨h1, h2⟩
      · simp only [hpd]
        simp only [StdMap.keys, List.map_cons, List.mem_cons]
        constructor
        · rintro (h1 | h1)
          · exact Or.inl h1
          · exact Or.inr ⟨Or.inr h1.1, h1.2⟩
        · rintro (h1 | ⟨h1 | h1, h2⟩)
          · exact Or.inl h1
          · subst h1; rw [hp] at h2; exact absurd h2 hpd
          · exact Or.inr ⟨h1, h2⟩

theorem scorePlusWords_keys (idf : String → ℚ) (s : SearchServer) (p : DocumentPredicate)
    (words : List String) :
    ∀ acc acc', scorePlusWords idf s p words acc = .ok acc' →
      ∀ d, d ∈ StdMap.keys acc' ↔
        d ∈ StdMap.keys acc ∨ (passes s p d = true ∧ ∃ w ∈ words, posted s w d = true) := by
  induction words with
  | nil =>
    intro acc acc' h d
    simp only [scorePlusWords, Except.ok.injEq] at h
    subst h; simp
  | cons w rest ih =>
    intro acc acc' h d
    unfold scorePlusWords at h
    cases hw : StdMap.find w s.word_to_document_freqs_ with
    | none =>
      rw [hw] at h
      simp only at h
      rw [ih _ _ h d]
      have hno : posted s w d = false := by unfold posted; rw [hw]
      simp [hno]
    | some postings =>
      rw [hw] at h
      simp only at h
      cases hs : scorePostings s p (idf w) postings acc with
      | error e => rw [hs] at h; cases h
      | ok acc1 =>
        rw [hs] at h
        simp only at h
        rw [ih _ _ h d, scorePostings_keys s p (idf w) postings acc acc1 hs d]
        have hpo : posted s w d = true ↔ d ∈ StdMap.keys postings := by
          unfold posted; rw [hw]; exact StdMap.find_isSome_iff d postings
        simp only [List.mem_cons, exists_eq_or_imp, hpo]
        tauto

theorem erasePostings_keys (postings : List (Int × ℚ)) :
    ∀ acc d, d ∈ StdMap.keys (erasePostings postings acc) ↔
      d ∈ StdMap.keys acc ∧ d ∉ StdMap.keys postings := by
  induction postings with
  | nil => intro acc d; simp [erasePostings, StdMap.keys]
  | cons e rest ih =>
    obtain ⟨d0, tf0⟩ := e
    intro acc d
    unfold erasePostings
    rw [ih, StdMap.mem_keys_erase]
    simp only [StdMap.keys, List.map_cons, List.mem_cons, not_or]
    tauto

theorem eraseMinusWords_keys (s : SearchServer) (words : List String) :
    ∀ acc d, d ∈ StdMap.keys (eraseMinusWords s words acc) ↔
      d ∈ StdMap.keys acc ∧ ∀ w ∈ words, posted s w d = false := by
  induction words with
  | nil => intro acc d; simp [eraseMinusWords]
  | cons w rest ih =>
    intro acc d
    unfold eraseMinusWords
    cases hw : StdMap.find w s.word_to_document_freqs_ with
    | none =>
      simp only
      rw [ih]
      have hno : posted s w d = false := by unfold posted; rw [hw]
      simp [hno]
    | some postings =>
      simp only
      rw [ih, erasePostings_keys]
      have hpo : posted s w d = false ↔ d ∉ StdMap.keys postings := by
        unfold posted; rw [hw, ← StdMap.find_isSome_iff]; simp
      simp only [List.mem_cons, forall_eq_or_imp, hpo]
      tauto

theorem emitDocuments_ok (s : SearchServer) (acc : List (Int × ℚ)) :
    ∀ docs, emitDocuments s acc = .ok docs →
      docs.map (fun r => (r.id, r.relevance)) = acc ∧
      ∀ r ∈ docs, ∃ data, StdMap.find r.id s.documents_ = some data ∧ r.rating = data.rating := by
  induction acc with
  | nil =>
    intro docs h
    simp only [emitDocuments, Except.ok.injEq] at h
    subst h; simp
  | cons e rest ih =>
    obtain ⟨d0, rel0⟩ := e
    intro docs h
    unfold emitDocuments at h
    cases hd : StdMap.find d0 s.documents_ with
    | none => rw [hd] at h; cases h
    | some data =>
      rw [hd] at h
      simp only at h
      cases hr : emitDocuments s rest with
      | error e => rw [hr] at h; cases h
      | ok docs' =>
        rw [hr] at h
        simp only [Except.ok.injEq] at h
        subst h
        obtain ⟨h1, h2⟩ := ih docs' hr
        refine ⟨by simp [h1], ?_⟩
        intro r hrm
        rcases List.mem_cons.1 hrm with h3 | h3
        · subst h3; exact ⟨data, hd, rfl⟩
        · exact h2 r h3

theorem FindAllDocuments_ok (idf : String → ℚ) (s : SearchServer) (q : Query)
    (p : DocumentPredicate) (docs : List Document)
    (h : FindAllDocuments idf s q p = .ok docs) :
    ∃ acc, scorePlusWords idf s p q.plus_words [] = .ok acc ∧
      emitDocuments s (eraseMinusWords s q.minus_words acc) = .ok docs := by
  unfold FindAllDocuments at h
  cases hs : scorePlusWords idf s p q.plus_words [] with
  | error e => rw [hs] at h; cases h
  | ok acc => rw [hs] at h; exact ⟨acc, rfl, h⟩

theorem FindAllDocuments_mem (idf : String → ℚ) (s : SearchServer) (q : Query)
    (p : DocumentPredicate) (docs : List Document)
    (h : FindAllDocuments idf s q p = .ok docs) (r : Document) (hr : r ∈ docs) :
    passes s p r.id = true ∧ (∃ w ∈ q.plus_words, posted s w r.id = true) ∧
      (∀ w ∈ q.minus_words, posted s w r.id = false) ∧
      ∃ data, StdMap.find r.id s.documents_ = some data ∧ r.rating = data.rating := by
  obtain ⟨acc, hs, he⟩ := FindAllDocuments_ok idf s q p docs h
  obtain ⟨hmap, hrat⟩ := emitDocuments_ok s _ docs he
  have hk : r.id ∈ StdMap.keys (eraseMinusWords s q.minus_words acc) := by
    rw [← hmap]
    simp only [StdMap.keys, List.map_map, List.mem_map]
    exact ⟨r, hr, rfl⟩
  rw [eraseMinusWords_keys, scorePlusWords_keys idf s p q.plus_words [] acc hs] at hk
  obtain ⟨hplus, hminus⟩ := hk
  rcases hplus with hnil | hplus
  · simp [StdMap.keys] at hnil
  · exact ⟨hplus.1, hplus.2, hminus, hrat r hr⟩

theorem passes_of_find (s : SearchServer) (p : DocumentPredicate) (d : Int)
    (data : DocumentData) (h : StdMap.find d s.documents_ = some data) :
    passes s p d = p d data.status data.rating := by
  unfold passes; rw [h]

theorem scorePostings_find (s : SearchServer) (p : DocumentPredicate) (x : ℚ)
    (postings : List (Int × ℚ)) :
    (StdMap.keys postings).Nodup →
    (∀ d ∈ StdMap.keys postings, (StdMap.find d s.documents_).isSome = true) →
    ∀ acc, StdMap.Ascending acc →
      ∃ acc', scorePostings s p x postings acc = .ok acc' ∧ StdMap.Ascending acc' ∧
        ∀ d, StdMap.find d acc' =
          if passes s p d = true ∧ d ∈ StdMap.keys postings then
            some ((StdMap.find d acc).getD 0 + (StdMap.find d postings).getD 0 * x)
          else StdMap.find d acc := by
  induction postings with
  | nil =>
    intro _ _ acc hacc
    exact ⟨acc, rfl, hacc, by intro d; simp [StdMap.keys]⟩
  | cons e rest ih =>
    obtain ⟨d0, tf0⟩ := e
    intro hnd hmeta acc hacc
    have hnd' : d0 ∉ StdMap.keys rest ∧ (StdMap.keys rest).Nodup := by
      simpa [StdMap.keys] using hnd
    have hmeta' : ∀ d ∈ StdMap.keys rest, (StdMap.find d s.documents_).isSome = true := by
      intro d hd
      exact hmeta d (by simp only [StdMap.keys, List.map_cons, List.mem_cons]; exact Or.inr hd)
    have hd0 := hmeta d0 (by simp [StdMap.keys])
    obtain ⟨data, hdata⟩ := Option.isSome_iff_exists.1 hd0
    have hpass := passes_of_find s p d0 data hdata
    unfold scorePostings
    rw [hdata]
    simp only
    by_cases hp : p d0 data.status data.rating = true
    · simp only [hp, if_true]
      have hacc1 : StdMap.Ascending (StdMap.addTo d0 (tf0 * x) acc) :=
        StdMap.ascending_modify _ _ _ _ hacc
      obtain ⟨acc', hrun, hasc, hfind⟩ := ih hnd'.2 hmeta' _ hacc1
      refine ⟨acc', hrun, hasc, ?_⟩
      intro d
      rw [hfind d]
      by_cases hd : d = d0
      · subst hd
        have h1 : StdMap.find d (StdMap.addTo d (tf0 * x) acc)
            = some ((StdMap.find d acc).getD 0 + tf0 * x) := by
          unfold StdMap.addTo
          rw [StdMap.find_modify _ _ _ _ _ hacc]; simp
        have hpd : passes s p d = true := by rw [hpass]; exact hp
        have hmem : d ∈ StdMap.keys ((d, tf0) :: rest) := by simp [StdMap.keys]
        have hf : StdMap.find d ((d, tf0) :: rest) = some tf0 := by simp [StdMap.find]
        rw [if_neg (fun h => hnd'.1 h.2), h1, if_pos ⟨hpd, hmem⟩, hf]
        rfl
      · have h1 : StdMap.find d (StdMap.addTo d0 (tf0 * x) acc) = StdMap.find d acc := by
          unfold StdMap.addTo
          rw [StdMap.find_modify _ _ _ _ _ hacc]; simp [hd]
        have h2 : StdMap.find d ((d0, tf0) :: rest) = StdMap.find d rest := by
          conv_lhs => unfold StdMap.find
          simp [hd]
        have h3 : d ∈ StdMap.keys ((d0, tf0) :: rest) ↔ d ∈ StdMap.keys rest := by
          simp [StdMap.keys, hd]
        rw [h1, h2]
        simp only [h3]
    · simp only [hp]
      obtain ⟨acc', hrun, hasc, hfind⟩ := ih hnd'.2 hmeta' _ hacc
      refine ⟨acc', hrun, hasc, ?_⟩
      intro d
      rw [hfind d]
      by_cases hd : d = d0
      · subst hd
        have hpd : ¬ passes s p d = true := by rw [hpass]; exact hp
        rw [if_neg (fun h => hnd'.1 h.2), if_neg (fun h => hpd h.1)]
      · have h2 : StdMap.find d ((d0, tf0) :: rest) = StdMap.find d rest := by
          conv_lhs => unfold StdMap.find
          simp [hd]
        have h3 : d ∈ StdMap.keys ((d0, tf0) :: rest) ↔ d ∈ StdMap.keys rest := by
          simp [StdMap.keys, hd]
        rw [h2]
        simp only [h3]

theorem termFreq_of_find (s : SearchServer) (w : String) (d : Int) (postings : List (Int × ℚ))
    (h : StdMap.find w s.word_to_document_freqs_ = some postings) :
    termFreq s w d = (StdMap.find d postings).getD 0 := by
  unfold termFreq; rw [h]

theorem posted_of_find (s : SearchServer) (w : String) (d : Int) (postings : List (Int × ℚ))
    (h : StdMap.find w s.word_to_document_freqs_ = some postings) :
    posted s w d = true ↔ d ∈ StdMap.keys postings := by
  unfold posted; rw [h]; exact StdMap.find_isSome_iff d postings

theorem termFreq_of_not_posted (s : SearchServer) (w : String) (d : Int)
    (h : posted s w d = false) : termFreq s w d = 0 := by
  unfold posted at h
  unfold termFreq
  cases hw : StdMap.find w s.word_to_document_freqs_ with
  | none => rfl
  | some postings =>
    rw [hw] at h
    simp only at h
    cases hd : StdMap.find d postings with
    | none => simp [hd]
    | some v => rw [hd] at h; simp at h

theorem scorePlusWords_find (idf : String → ℚ) (s : SearchServer) (p : DocumentPredicate)
    (hnd : PostingsDistinct s) (hmeta : PostedHaveMetadata s) (words : List String) :
    ∀ acc, StdMap.Ascending acc →
      ∃ acc', scorePlusWords idf s p words acc = .ok acc' ∧ StdMap.Ascending acc' ∧
        ∀ d, StdMap.find d acc' =
          if passes s p d = true ∧ ∃ w ∈ words, posted s w d = true then
            some ((StdMap.find d acc).getD 0 +
              (words.map (fun w => termFreq s w d * idf w)).sum)
          else StdMap.find d acc := by
  induction words with
  | nil =>
    intro acc hacc
    exact ⟨acc, rfl, hacc, by intro d; simp⟩
  | cons w rest ih =>
    intro acc hacc
    unfold scorePlusWords
    cases hw : StdMap.find w s.word_to_document_freqs_ with
    | none =>
      simp only
      obtain ⟨acc', hrun, hasc, hfind⟩ := ih acc hacc
      refine ⟨acc', hrun, hasc, ?_⟩
      intro d
      have hno : posted s w d = false := by unfold posted; rw [hw]
      have htf : termFreq s w d = 0 := termFreq_of_not_posted s w d hno
      rw [hfind d]
      simp [hno, htf]
    | some postings =>
      simp only
      have hmem := StdMap.find_some_mem _ _ _ hw
      obtain ⟨acc1, hrun1, hasc1, hfind1⟩ :=
        scorePostings_find s p (idf w) postings (hnd _ hmem) (hmeta _ hmem) acc hacc
      rw [hrun1]
      simp only
      obtain ⟨acc', hrun, hasc, hfind⟩ := ih acc1 hasc1
      refine ⟨acc', hrun, hasc, ?_⟩
      intro d
      rw [hfind d, hfind1 d]
      have hpo := posted_of_find s w d postings hw
      have htf := termFreq_of_find s w d postings hw
      by_cases hpass : passes s p d = true
      · by_cases hin : d ∈ StdMap.keys postings
        · have hpw : posted s w d = true := hpo.2 hin
          simp only [hpass, hin, and_self, if_true, true_and, List.mem_cons,
            exists_eq_or_imp, hpw, true_or, Option.getD_some, List.map_cons, List.sum_cons,
            htf]
          by_cases hrest : ∃ w ∈ rest, posted s w d = true
          · simp only [hrest, if_true]; congr 1; ring
          · simp only [hrest, if_false]; 
            have hz : (rest.map (fun w => termFreq s w d * idf w)).sum = 0 := by
              apply List.sum_eq_zero
              intro y hy
              obtain ⟨w', hw', rfl⟩ := List.mem_map.1 hy
              have : posted s w' d = false := by
                cases hc : posted s w' d with
                | false => rfl
                | true => exact absurd ⟨w', hw', hc⟩ hrest
              rw [termFreq_of_not_posted s w' d this]; ring
            rw [hz]; congr 1; ring
        · have hpw : posted s w d = false := by
            cases hc : posted s w d with
            | false => rfl
            | true => exact absurd (hpo.1 hc) hin
          have htf0 : termFreq s w d = 0 := termFreq_of_not_posted s w d hpw
          simp [hpass, hin, hpw, htf0]
      · simp [hpass]

theorem erasePostings_find (postings : List (Int × ℚ)) :
    ∀ acc d, StdMap.find d (erasePostings postings acc) =
      if d ∈ StdMap.keys postings then none else StdMap.find d acc := by
  induction postings with
  | nil => intro acc d; simp [erasePostings, StdMap.keys]
  | cons e rest ih =>
    obtain ⟨d0, tf0⟩ := e
    intro acc d
    unfold erasePostings
    rw [ih, StdMap.find_erase]
    by_cases h1 : d ∈ StdMap.keys rest
    · have h2 : d ∈ StdMap.keys ((d0, tf0) :: rest) := by
        simp only [StdMap.keys, List.map_cons, List.mem_cons]; exact Or.inr h1
      rw [if_pos h1, if_pos h2]
    · rw [if_neg h1]
      by_cases h3 : d = d0
      · have h2 : d ∈ StdMap.keys ((d0, tf0) :: rest) := by
          simp only [StdMap.keys, List.map_cons, List.mem_cons]; exact Or.inl h3
        rw [if_pos h3, if_pos h2]
      · have h2 : d ∉ StdMap.keys ((d0, tf0) :: rest) := by
          simp only [StdMap.keys, List.map_cons, List.mem_cons, not_or]; exact ⟨h3, h1⟩
        rw [if_neg h3, if_neg h2]

theorem erasePostings_ascending (postings : List (Int × ℚ)) :
    ∀ acc, StdMap.Ascending acc → StdMap.Ascending (erasePostings postings acc) := by
  induction postings with
  | nil => intro acc h; exact h
  | cons e rest ih =>
    intro acc h
    unfold erasePostings
    exact ih _ (StdMap.ascending_erase _ _ h)

theorem eraseMinusWords_ascending (s : SearchServer) (words : List String) :
    ∀ acc, StdMap.Ascending acc → StdMap.Ascending (eraseMinusWords s words acc) := by
  induction words with
  | nil => intro acc h; exact h
  | cons w rest ih =>
    intro acc h
    unfold eraseMinusWords
    cases hw : StdMap.find w s.word_to_document_freqs_ with
    | none => exact ih _ h
    | some postings => exact ih _ (erasePostings_ascending postings acc h)

theorem eraseMinusWords_find (s : SearchServer) (words : List String) :
    ∀ acc d, StdMap.find d (eraseMinusWords s words acc) =
      if ∃ w ∈ words, posted s w d = true then none else StdMap.find d acc := by
  induction words with
  | nil => intro acc d; simp [eraseMinusWords]
  | cons w rest ih =>
    intro acc d
    unfold eraseMinusWords
    cases hw : StdMap.find w s.word_to_document_freqs_ with
    | none =>
      simp only
      rw [ih]
      have hno : posted s w d = false := by unfold posted; rw [hw]
      simp [hno]
    | some postings =>
      simp only
      rw [ih, erasePostings_find]
      have hpo := posted_of_find s w d postings hw
      by_cases h1 : ∃ w ∈ rest, posted s w d = true
      · have h2 : ∃ w' ∈ w :: rest, posted s w' d = true := by
          obtain ⟨w', hw', hp⟩ := h1
          exact ⟨w', List.mem_cons_of_mem _ hw', hp⟩
        rw [if_pos h1, if_pos h2]
      · rw [if_neg h1]
        by_cases h3 : d ∈ StdMap.keys postings
        · have h2 : ∃ w' ∈ w :: rest, posted s w' d = true :=
            ⟨w, List.mem_cons_self _ _, hpo.2 h3⟩
          rw [if_pos h3, if_pos h2]
        · have h2 : ¬ ∃ w' ∈ w :: rest, posted s w' d = true := by
            rintro ⟨w', hw', hp⟩
            rcases List.mem_cons.1 hw' with rfl | hw''
            · exact h3 (hpo.1 hp)
            · exact h1 ⟨w', hw'', hp⟩
          rw [if_neg h3, if_neg h2]

theorem emitDocuments_total (s : SearchServer) (acc : List (Int × ℚ))
    (h : ∀ d ∈ StdMap.keys acc, (StdMap.find d s.documents_).isSome = true) :
    ∃ docs, emitDocuments s acc = .ok docs := by
  induction acc with
  | nil => exact ⟨[], rfl⟩
  | cons e rest ih =>
    obtain ⟨d0, rel0⟩ := e
    have h0 := h d0 (by simp [StdMap.keys])
    obtain ⟨data, hdata⟩ := Option.isSome_iff_exists.1 h0
    obtain ⟨docs, hdocs⟩ := ih (by
      intro d hd
      exact h d (by simp only [StdMap.keys, List.map_cons, List.mem_cons]; exact Or.inr hd))
    unfold emitDocuments
    rw [hdata]
    simp only
    rw [hdocs]
    exact ⟨_, rfl⟩

theorem passes_isSome (s : SearchServer) (p : DocumentPredicate) (d : Int)
    (h : passes s p d = true) : (StdMap.find d s.documents_).isSome = true := by
  unfold passes at h
  cases hd : StdMap.find d s.documents_ with
  | none => rw [hd] at h; cases h
  | some data => rfl

/-- Under the container invariants `FindAllDocuments` returns, and its records
are the entries of an ascending relevance map described key by key. -/
theorem FindAllDocuments_spec (idf : String → ℚ) (s : SearchServer) (q : Query)
    (p : DocumentPredicate) (hnd : PostingsDistinct s) (hmeta : PostedHaveMetadata s) :
    ∃ docs acc, FindAllDocuments idf s q p = .ok docs ∧ StdMap.Ascending acc ∧
      docs.map (fun r => (r.id, r.relevance)) = acc ∧
      (∀ r ∈ docs, ∃ data, StdMap.find r.id s.documents_ = some data ∧
        r.rating = data.rating) ∧
      ∀ d, StdMap.find d acc =
        if (passes s p d = true ∧ ∃ w ∈ q.plus_words, posted s w d = true) ∧
            ¬ ∃ w ∈ q.minus_words, posted s w d = true then
          some ((q.plus_words.map (fun w => termFreq s w d * idf w)).sum)
        else none := by
  obtain ⟨acc1, hrun, hasc, hfind⟩ :=
    scorePlusWords_find idf s p hnd hmeta q.plus_words [] (by simp [StdMap.Ascending, StdMap.keys])
  have hasc2 := eraseMinusWords_ascending s q.minus_words acc1 hasc
  have hkeys : ∀ d ∈ StdMap.keys (eraseMinusWords s q.minus_words acc1),
      (StdMap.find d s.documents_).isSome = true := by
    intro d hd
    rw [eraseMinusWords_keys, scorePlusWords_keys idf s p q.plus_words [] acc1 hrun] at hd
    rcases hd.1 with h | h
    · simp [StdMap.keys] at h
    · exact passes_isSome s p d h.1
  obtain ⟨docs, hdocs⟩ := emitDocuments_total s _ hkeys
  obtain ⟨hmap, hrat⟩ := emitDocuments_ok s _ docs hdocs
  refine ⟨docs, eraseMinusWords s q.minus_words acc1, ?_, hasc2, hmap, hrat, ?_⟩
  · unfold FindAllDocuments
    rw [hrun]
    exact hdocs
  · intro d
    rw [eraseMinusWords_find, hfind d]
    by_cases hm : ∃ w ∈ q.minus_words, posted s w d = true
    · simp [hm]
    · by_cases hpl : passes s p d = true ∧ ∃ w ∈ q.plus_words, posted s w d = true
      · rw [if_neg hm, if_pos hpl, if_pos ⟨hpl, hm⟩]
        simp [StdMap.find]
      · rw [if_neg hm, if_neg hpl, if_neg (fun h => hpl h.1)]
        simp [StdMap.find]

theorem sum_plus_words (s : SearchServer) (idf : String → ℚ) (d : Int) (words : List String)
    (hnd : words.Nodup) :
    (words.map (fun w => termFreq s w d * idf w)).sum =
      ∑ w ∈ words.toFinset.filter (fun w => posted s w d = true), termFreq s w d * idf w := by
  rw [Finset.sum_filter_of_ne, List.sum_toFinset _ hnd]
  intro w _ hne
  cases hc : posted s w d with
  | true => rfl
  | false =>
    exfalso
    apply hne
    rw [termFreq_of_not_posted s w d hc]; ring

end SearchServer

/-! ## Lemmas on the sort -/

namespace StdSort

theorem unguarded_linear_insert_eq {α : Type} (comp : α → α → Bool) (val : α)
    (revLeft : List α) :
    ∀ right, unguarded_linear_insert comp val revLeft right =
      (revLeft.dropWhile (comp val)).reverse ++
        val :: ((revLeft.takeWhile (comp val)).reverse ++ right) := by
  induction revLeft with
  | nil => intro right; simp [unguarded_linear_insert]
  | cons next rest ih =>
    intro right
    unfold unguarded_linear_insert
    by_cases h : comp val next = true
    · simp [h, ih, List.takeWhile_cons, List.dropWhile_cons]
    · simp [h, List.takeWhile_cons, List.dropWhile_cons]

theorem linear_insert_perm {α : Type} (comp : α → α → Bool) (sorted : List α) (val : α) :
    (linear_insert comp sorted val).Perm (val :: sorted) := by
  unfold linear_insert
  cases sorted with
  | nil => simp
  | cons first rest =>
    simp only
    split
    · exact List.Perm.refl _
    · rw [unguarded_linear_insert_eq]
      simp only [List.append_nil]
      have h1 : ((first :: rest).reverse.dropWhile (comp val)).reverse ++
            val :: ((first :: rest).reverse.takeWhile (comp val)).reverse
          = ((first :: rest).reverse.dropWhile (comp val)).reverse ++
            ([val] ++ ((first :: rest).reverse.takeWhile (comp val)).reverse) := by simp
      rw [h1]
      refine (List.perm_append_comm_assoc _ _ _).trans ?_
      simp only [List.singleton_append]
      refine List.Perm.cons _ ?_
      refine (List.perm_append_comm).trans ?_
      rw [← List.reverse_append]
      refine (List.reverse_perm _).trans ?_
      refine (List.perm_append_comm).trans ?_
      rw [List.takeWhile_append_dropWhile]
      exact List.reverse_perm _

theorem foldl_linear_insert_perm {α : Type} (comp : α → α → Bool) (range : List α) :
    ∀ sorted, (range.foldl (linear_insert comp) sorted).Perm (sorted ++ range) := by
  induction range with
  | nil => intro sorted; simp
  | cons val rest ih =>
    intro sorted
    simp only [List.foldl_cons]
    refine (ih _).trans ?_
    refine ((linear_insert_perm comp sorted val).append_right rest).trans ?_
    simp only [List.cons_append]
    exact (List.perm_middle).symm

theorem sort_perm {α : Type} (comp : α → α → Bool) (range : List α) :
    (sort comp range).Perm range := by
  unfold sort
  simpa using foldl_linear_insert_perm comp range []

theorem sort_length {α : Type} (comp : α → α → Bool) (range : List α) :
    (sort comp range).length = range.length := (sort_perm comp range).length_eq

theorem mem_sort {α : Type} (comp : α → α → Bool) (range : List α) (a : α) :
    a ∈ sort comp range ↔ a ∈ range := (sort_perm comp range).mem_iff

theorem dropWhile_not_before {α : Type} (comp : α → α → Bool) (S : α → Prop)
    (hneg : ∀ a b c, S a → S b → S c → comp a b = false → comp b c = false → comp a c = false)
    (val : α) (hval : S val) (l : List α) (hS : ∀ x ∈ l, S x)
    (hp : l.Pairwise (fun a b => comp a b = false)) :
    ∀ a ∈ l.dropWhile (comp val), comp val a = false := by
  induction l with
  | nil => intro a ha; simp at ha
  | cons z rest ih =>
    have hp' := List.pairwise_cons.1 hp
    have hS' : ∀ x ∈ rest, S x := fun x hx => hS x (List.mem_cons_of_mem _ hx)
    intro a ha
    by_cases hz : comp val z = true
    · rw [List.dropWhile_cons, if_pos hz] at ha
      exact ih hS' hp'.2 a ha
    · rw [List.dropWhile_cons, if_neg hz] at ha
      have hz' : comp val z = false := by simpa using hz
      rcases List.mem_cons.1 ha with rfl | hr
      · exact hz'
      · exact hneg val z a hval (hS z (List.mem_cons_self _ _)) (hS' a hr) hz' (hp'.1 a hr)

theorem linear_insert_pairwise {α : Type} (comp : α → α → Bool) (S : α → Prop)
    (hasym : ∀ a b, S a → S b → comp a b = true → comp b a = false)
    (htrans : ∀ a b c, S a → S b → S c → comp a b = true → comp b c = true → comp a c = true)
    (hneg : ∀ a b c, S a → S b → S c → comp a b = false → comp b c = false → comp a c = false)
    (sorted : List α) (val : α) (hS : ∀ x ∈ sorted, S x) (hval : S val)
    (hp : sorted.Pairwise (fun a b => comp b a = false)) :
    (linear_insert comp sorted val).Pairwise (fun a b => comp b a = false) := by
  unfold linear_insert
  cases sorted with
  | nil => simp
  | cons first rest =>
    simp only
    have hp' := List.pairwise_cons.1 hp
    have hfirst : S first := hS first (List.mem_cons_self _ _)
    split
    · rename_i hlt
      rw [List.pairwise_cons]
      refine ⟨?_, hp⟩
      intro y hy
      rcases List.mem_cons.1 hy with rfl | hr
      · exact hasym val y hval hfirst hlt
      · cases hc : comp y val with
        | false => rfl
        | true =>
          have hSy : S y := hS y (List.mem_cons_of_mem _ hr)
          have h1 := htrans y val first hSy hval hfirst hc hlt
          rw [hp'.1 y hr] at h1
          cases h1
    · rw [unguarded_linear_insert_eq]
      simp only [List.append_nil]
      have hrev : ((first :: rest).reverse.dropWhile (comp val)).reverse ++
            val :: ((first :: rest).reverse.takeWhile (comp val)).reverse
          = ((first :: rest).reverse.takeWhile (comp val) ++
              val :: (first :: rest).reverse.dropWhile (comp val)).reverse := by simp
      rw [hrev, List.pairwise_reverse]
      have hq : (first :: rest).reverse.Pairwise (fun a b => comp a b = false) :=
        List.pairwise_reverse.2 hp
      have hSr : ∀ x ∈ (first :: rest).reverse, S x := fun x hx => hS x (List.mem_reverse.1 hx)
      generalize (first :: rest).reverse = lr at hq hSr ⊢
      have hsplit : (lr.takeWhile (comp val) ++ lr.dropWhile (comp val)).Pairwise
          (fun a b => comp a b = false) := by
        rw [List.takeWhile_append_dropWhile]; exact hq
      rw [List.pairwise_append] at hsplit ⊢
      refine ⟨hsplit.1, ?_, ?_⟩
      · rw [List.pairwise_cons]
        exact ⟨dropWhile_not_before comp S hneg val hval lr hSr hq, hsplit.2.1⟩
      · intro a ha b hb
        rcases List.mem_cons.1 hb with rfl | hb'
        · have hta : comp b a = true := List.mem_takeWhile_imp ha
          exact hasym b a hval (hSr a (List.takeWhile_subset _ ha)) hta
        · exact hsplit.2.2 a ha b hb'

theorem foldl_linear_insert_pairwise {α : Type} (comp : α → α → Bool) (S : α → Prop)
    (hasym : ∀ a b, S a → S b → comp a b = true → comp b a = false)
    (htrans : ∀ a b c, S a → S b → S c → comp a b = true → comp b c = true → comp a c = true)
    (hneg : ∀ a b c, S a → S b → S c → comp a b = false → comp b c = false → comp a c = false)
    (range : List α) :
    ∀ sorted, (∀ x ∈ sorted, S x) → (∀ x ∈ range, S x) →
      sorted.Pairwise (fun a b => comp b a = false) →
      (range.foldl (linear_insert comp) sorted).Pairwise (fun a b => comp b a = false) := by
  induction range with
  | nil => intro sorted _ _ hp; exact hp
  | cons val rest ih =>
    intro sorted hS hR hp
    simp only [List.foldl_cons]
    have hval : S val := hR val (List.mem_cons_self _ _)
    refine ih _ ?_ (fun x hx => hR x (List.mem_cons_of_mem _ hx))
      (linear_insert_pairwise comp S hasym htrans hneg sorted val hS hval hp)
    intro x hx
    rcases List.mem_cons.1 ((linear_insert_perm comp sorted val).mem_iff.1 hx) with rfl | h
    · exact hval
    · exact hS x h

theorem sort_pairwise {α : Type} (comp : α → α → Bool) (range : List α)
    (hasym : ∀ a ∈ range, ∀ b ∈ range, comp a b = true → comp b a = false)
    (htrans : ∀ a ∈ range, ∀ b ∈ range, ∀ c ∈ range,
      comp a b = true → comp b c = true → comp a c = true)
    (hneg : ∀ a ∈ range, ∀ b ∈ range, ∀ c ∈ range,
      comp a b = false → comp b c = false → comp a c = false) :
    (sort comp range).Pairwise (fun a b => comp b a = false) := by
  unfold sort
  exact foldl_linear_insert_pairwise comp (fun x => x ∈ range)
    (fun a b ha hb => hasym a ha b hb)
    (fun a b c ha hb hc => htrans a ha b hb c hc)
    (fun a b c ha hb hc => hneg a ha b hb c hc)
    range [] (by simp) (fun x hx => hx) List.Pairwise.nil

end StdSort

/-! ## Lemmas on the rounding -/

namespace Binary64

theorem log2Fuel_spec (fuel : Nat) :
    ∀ n, 1 ≤ n → n ≤ fuel →
      2 ^ log2Fuel fuel n ≤ n ∧ n < 2 ^ (log2Fuel fuel n + 1) := by
  induction fuel with
  | zero => intro n h1 h2; omega
  | succ fuel ih =>
    intro n h1 h2
    unfold log2Fuel
    by_cases hn : n < 2
    · rw [if_pos hn]
      constructor
      · simpa using h1
      · simpa using hn
    · rw [if_neg hn]
      obtain ⟨hlo, hhi⟩ := ih (n / 2) (by omega) (by omega)
      rw [pow_succ, pow_succ]
      constructor
      · omega
      · rw [pow_succ] at hhi; omega

theorem log2_spec (n : Nat) (h : 1 ≤ n) : 2 ^ log2 n ≤ n ∧ n < 2 ^ (log2 n + 1) :=
  log2Fuel_spec n n h (le_refl n)

theorem pow2_pos (e : ℤ) : 0 < pow2 e := zpow_pos (by norm_num) e

theorem pow2_add (a b : ℤ) : pow2 (a + b) = pow2 a * pow2 b :=
  zpow_add₀ (by norm_num) a b

theorem pow2_le_iff (a b : ℤ) : pow2 a ≤ pow2 b ↔ a ≤ b :=
  zpow_le_zpow_iff_right₀ (by norm_num)

theorem pow2_lt_iff (a b : ℤ) : pow2 a < pow2 b ↔ a < b :=
  zpow_lt_zpow_iff_right₀ (by norm_num)

theorem pow2_natCast (n : Nat) : pow2 (n : ℤ) = (2 : ℚ) ^ n := zpow_natCast 2 n

theorem pow2_sub (a b : ℤ) : pow2 (a - b) = pow2 a / pow2 b :=
  zpow_sub₀ (by norm_num) a b

theorem ratio_bounds (p d : ℚ) (a b : Nat) (hd : 0 < d) (hplo : (2 : ℚ) ^ a ≤ p)
    (hphi : p < (2 : ℚ) ^ (a + 1)) (hdlo : (2 : ℚ) ^ b ≤ d) (hdhi : d < (2 : ℚ) ^ (b + 1)) :
    pow2 ((a : ℤ) - (b : ℤ) - 1) ≤ p / d ∧ p / d < pow2 ((a : ℤ) - (b : ℤ) + 1) := by
  have hpa : (0 : ℚ) < (2 : ℚ) ^ a := by positivity
  have hpb : (0 : ℚ) < (2 : ℚ) ^ b := by positivity
  have h21 : pow2 1 = 2 := by simp [pow2]
  rw [pow_succ] at hphi hdhi
  constructor
  · rw [pow2_sub, pow2_sub, pow2_natCast, pow2_natCast, h21, div_div,
      div_le_div_iff₀ (by positivity) hd]
    calc (2 : ℚ) ^ a * d ≤ 2 ^ a * (2 ^ b * 2) :=
          mul_le_mul_of_nonneg_left (le_of_lt hdhi) (le_of_lt hpa)
      _ ≤ p * (2 ^ b * 2) := mul_le_mul_of_nonneg_right hplo (by positivity)
  · rw [pow2_add, pow2_sub, pow2_natCast, pow2_natCast, h21, div_mul_eq_mul_div,
      div_lt_div_iff₀ hd hpb]
    calc p * 2 ^ b < (2 ^ a * 2) * 2 ^ b := mul_lt_mul_of_pos_right hphi hpb
      _ ≤ (2 ^ a * 2) * d := mul_le_mul_of_nonneg_left hdlo (by positivity)

theorem binade_spec (x : ℚ) (hx : 0 < x) :
    pow2 (binade x) ≤ x ∧ x < pow2 (binade x + 1) := by
  have hnum : 0 < x.num := Rat.num_pos.2 hx
  have hp : 1 ≤ x.num.natAbs := by omega
  have hd : 1 ≤ x.den := x.den_pos
  obtain ⟨hplo, hphi⟩ := log2_spec x.num.natAbs hp
  obtain ⟨hdlo, hdhi⟩ := log2_spec x.den hd
  have hxeq : (x.num.natAbs : ℚ) / (x.den : ℚ) = x := by
    have h2 : (x.num.natAbs : ℚ) = (x.num : ℚ) := by
      rw [Nat.cast_natAbs, abs_of_pos hnum]
    rw [h2]
    exact Rat.num_div_den x
  have hb := ratio_bounds (x.num.natAbs : ℚ) (x.den : ℚ) (log2 x.num.natAbs) (log2 x.den)
    (by exact_mod_cast hd) (by exact_mod_cast hplo) (by exact_mod_cast hphi)
    (by exact_mod_cast hdlo) (by exact_mod_cast hdhi)
  rw [hxeq] at hb
  unfold binade
  simp only
  split
  · rename_i hc
    exact ⟨hc, hb.2⟩
  · rename_i hc
    refine ⟨hb.1, ?_⟩
    rw [sub_add_cancel]
    exact not_le.1 hc

theorem le_binade (x : ℚ) (hx : 0 < x) (k : ℤ) (h : pow2 k ≤ x) : k ≤ binade x := by
  have h1 := lt_of_le_of_lt h (binade_spec x hx).2
  rw [pow2_lt_iff] at h1
  omega

theorem binade_lt (x : ℚ) (hx : 0 < x) (k : ℤ) (h : x < pow2 k) : binade x < k := by
  have h1 := lt_of_le_of_lt (binade_spec x hx).1 h
  rwa [pow2_lt_iff] at h1

theorem le_roundHalfEven (q : ℚ) (n : ℤ) (h : (n : ℚ) ≤ q) : n ≤ roundHalfEven q := by
  have hf : n ≤ ⌊q⌋ := Int.le_floor.2 h
  unfold roundHalfEven
  split_ifs <;> omega

theorem roundHalfEven_le (q : ℚ) (n : ℤ) (h : q ≤ (n : ℚ)) : roundHalfEven q ≤ n := by
  have hf : ⌊q⌋ ≤ n := by
    have := Int.floor_le q
    exact_mod_cast Int.le_floor.1 (le_refl ⌊q⌋) |>.trans h
  have hfl := Int.floor_le q
  unfold roundHalfEven
  by_cases heq : ⌊q⌋ = n
  · have hfrac : q - (⌊q⌋ : ℚ) < 1 / 2 := by
      rw [heq]; linarith
    rw [if_pos hfrac]; omega
  · have hlt : ⌊q⌋ < n := lt_of_le_of_ne hf heq
    split_ifs <;> omega

/-- At an even integer `n` the rounding stays at or below `n` exactly up to the
midpoint `n + 1/2`. -/
theorem roundHalfEven_le_even (q : ℚ) (n : ℤ) (hn : n % 2 = 0) :
    roundHalfEven q ≤ n ↔ q ≤ (n : ℚ) + 1 / 2 := by
  have hfl := Int.floor_le q
  have hlt := Int.lt_floor_add_one q
  constructor
  · intro h
    by_contra hq
    rw [not_le] at hq
    have hf : n ≤ ⌊q⌋ := Int.le_floor.2 (by linarith)
    unfold roundHalfEven at h
    by_cases heq : ⌊q⌋ = n
    · have h1 : ¬ q - (⌊q⌋ : ℚ) < 1 / 2 := by rw [heq]; linarith
      have h2 : 1 / 2 < q - (⌊q⌋ : ℚ) := by rw [heq]; linarith
      rw [if_neg h1, if_pos h2] at h
      omega
    · have hgt : n < ⌊q⌋ := lt_of_le_of_ne hf (fun h => heq h.symm)
      split_ifs at h <;> omega
  · intro h
    have hf : ⌊q⌋ ≤ n := by
      by_contra hc
      rw [not_le] at hc
      have : (n : ℚ) + 1 ≤ (⌊q⌋ : ℚ) := by exact_mod_cast hc
      linarith
    unfold roundHalfEven
    by_cases heq : ⌊q⌋ = n
    · by_cases h1 : q - (⌊q⌋ : ℚ) < 1 / 2
      · rw [if_pos h1]; omega
      · have h2 : ¬ 1 / 2 < q - (⌊q⌋ : ℚ) := by rw [heq]; linarith
        rw [if_neg h1, if_neg h2, if_pos (by rw [heq]; exact hn)]
        omega
    · have hlt' : ⌊q⌋ < n := lt_of_le_of_ne hf heq
      split_ifs <;> omega

theorem roundMagnitude_zero : roundMagnitude 0 = 0 := by simp [roundMagnitude]

theorem roundMagnitude_nonneg (x : ℚ) (hx : 0 ≤ x) : 0 ≤ roundMagnitude x := by
  unfold roundMagnitude
  split
  · exact le_refl 0
  · have hq := pow2_pos (max (binade x) (-1022) - 52)
    have hy : ((0 : ℤ) : ℚ) ≤ x / pow2 (max (binade x) (-1022) - 52) := by
      simpa using div_nonneg hx (le_of_lt hq)
    have hr := le_roundHalfEven _ 0 hy
    have : (0 : ℚ) ≤ (roundHalfEven (x / pow2 (max (binade x) (-1022) - 52)) : ℚ) := by
      exact_mod_cast hr
    exact mul_nonneg this (le_of_lt hq)

theorem abs_roundToDouble (x : ℚ) : |roundToDouble x| = roundMagnitude |x| := by
  unfold roundToDouble
  by_cases hx : x < 0
  · rw [if_pos hx, abs_neg, abs_of_neg hx,
      abs_of_nonneg (roundMagnitude_nonneg (-x) (by linarith))]
  · rw [if_neg hx, abs_of_nonneg (not_lt.1 hx),
      abs_of_nonneg (roundMagnitude_nonneg x (not_lt.1 hx))]

theorem accuracy_eq : accuracy = ((4722366482869645 : ℤ) : ℚ) * pow2 (-72) := by
  unfold accuracy pow2; norm_num

theorem tolerance_eq :
    tolerance = (((4722366482869644 : ℤ) : ℚ) + 1 / 2) * pow2 (-72) := by
  unfold tolerance pow2; norm_num

theorem pow2_le_tolerance : pow2 (-20) ≤ tolerance := by
  unfold tolerance pow2; norm_num

theorem tolerance_lt_accuracy : tolerance < accuracy := by
  unfold tolerance accuracy; norm_num

theorem accuracy_lt_pow2 : accuracy < pow2 (-19) := by
  unfold accuracy pow2; norm_num

/-- The rounded magnitude is below `accuracy` exactly when the magnitude is at
most `tolerance`. -/
theorem roundMagnitude_lt_accuracy_iff (x : ℚ) (hx : 0 ≤ x) :
    roundMagnitude x < accuracy ↔ x ≤ tolerance := by
  have htol : (0 : ℚ) < tolerance := lt_of_lt_of_le (pow2_pos _) pow2_le_tolerance
  rcases hx.eq_or_lt with h0 | hpos
  · subst h0
    rw [roundMagnitude_zero]
    exact ⟨fun _ => le_of_lt htol, fun _ => lt_trans htol tolerance_lt_accuracy⟩
  have hne : x ≠ 0 := ne_of_gt hpos
  unfold roundMagnitude
  rw [if_neg hne]
  have hspec := binade_spec x hpos
  by_cases hA : x < pow2 (-20)
  · -- below the binade of `accuracy`
    have hb : binade x < -20 := binade_lt x hpos (-20) hA
    have he : max (binade x) (-1022) ≤ -21 := max_le (by omega) (by norm_num)
    have hge : binade x ≤ max (binade x) (-1022) := le_max_left _ _
    have hq := pow2_pos (max (binade x) (-1022) - 52)
    have hx53 : x ≤ ((2 ^ 53 : ℤ) : ℚ) * pow2 (max (binade x) (-1022) - 52) := by
      have h1 : x < pow2 (max (binade x) (-1022) + 1) :=
        lt_of_lt_of_le hspec.2 ((pow2_le_iff _ _).2 (by omega))
      have h2 : pow2 (max (binade x) (-1022) + 1)
          = ((2 ^ 53 : ℤ) : ℚ) * pow2 (max (binade x) (-1022) - 52) := by
        have h3 : max (binade x) (-1022) + 1 = 53 + (max (binade x) (-1022) - 52) := by ring
        rw [h3, pow2_add]
        congr 1
        unfold pow2; norm_num
      rw [h2] at h1
      exact le_of_lt h1
    have hy : x / pow2 (max (binade x) (-1022) - 52) ≤ ((2 ^ 53 : ℤ) : ℚ) :=
      (div_le_iff₀ hq).2 hx53
    have hr := roundHalfEven_le _ _ hy
    have hr' : (roundHalfEven (x / pow2 (max (binade x) (-1022) - 52)) : ℚ)
        ≤ ((2 ^ 53 : ℤ) : ℚ) := by exact_mod_cast hr
    have hval : (roundHalfEven (x / pow2 (max (binade x) (-1022) - 52)) : ℚ)
          * pow2 (max (binade x) (-1022) - 52) ≤ pow2 (-20) := by
      calc (roundHalfEven (x / pow2 (max (binade x) (-1022) - 52)) : ℚ)
            * pow2 (max (binade x) (-1022) - 52)
          ≤ ((2 ^ 53 : ℤ) : ℚ) * pow2 (max (binade x) (-1022) - 52) :=
            mul_le_mul_of_nonneg_right hr' (le_of_lt hq)
        _ = pow2 (53 + (max (binade x) (-1022) - 52)) := by
            rw [pow2_add]; congr 1; unfold pow2; norm_num
        _ ≤ pow2 (-20) := (pow2_le_iff _ _).2 (by omega)
    constructor
    · intro _
      exact le_trans (le_of_lt hA) pow2_le_tolerance
    · intro _
      exact lt_of_le_of_lt hval (lt_of_le_of_lt pow2_le_tolerance tolerance_lt_accuracy)
  · rw [not_lt] at hA
    by_cases hC : x < pow2 (-19)
    · -- the binade of `accuracy`
      have hb1 : -20 ≤ binade x := le_binade x hpos (-20) hA
      have hb2 : binade x < -19 := binade_lt x hpos (-19) hC
      have hb : binade x = -20 := by omega
      have he : max (binade x) (-1022) - 52 = -72 := by rw [hb]; norm_num
      rw [he]
      have hq := pow2_pos (-72)
      rw [accuracy_eq, tolerance_eq, mul_lt_mul_right hq, ← div_le_iff₀ hq]
      have hiff := roundHalfEven_le_even (x / pow2 (-72)) 4722366482869644 (by norm_num)
      rw [← hiff]
      constructor
      · intro h
        have : roundHalfEven (x / pow2 (-72)) < 4722366482869645 := by exact_mod_cast h
        omega
      · intro h
        have : roundHalfEven (x / pow2 (-72)) < 4722366482869645 := by omega
        exact_mod_cast this
    · -- above the binade of `accuracy`
      rw [not_lt] at hC
      have hb : -19 ≤ binade x := le_binade x hpos (-19) hC
      have he : max (binade x) (-1022) = binade x := max_eq_left (by omega)
      rw [he]
      have hq := pow2_pos (binade x - 52)
      have hy : ((2 ^ 52 : ℤ) : ℚ) ≤ x / pow2 (binade x - 52) := by
        rw [le_div_iff₀ hq]
        have h2 : ((2 ^ 52 : ℤ) : ℚ) * pow2 (binade x - 52) = pow2 (binade x) := by
          have h3 : binade x = 52 + (binade x - 52) := by ring
          conv_rhs => rw [h3, pow2_add]
          congr 1
          unfold pow2; norm_num
        rw [h2]
        exact hspec.1
      have hr := le_roundHalfEven _ _ hy
      have hr' : ((2 ^ 52 : ℤ) : ℚ) ≤ (roundHalfEven (x / pow2 (binade x - 52)) : ℚ) := by
        exact_mod_cast hr
      have hval : pow2 (-19) ≤ (roundHalfEven (x / pow2 (binade x - 52)) : ℚ)
          * pow2 (binade x - 52) := by
        calc pow2 (-19) ≤ pow2 (52 + (binade x - 52)) := (pow2_le_iff _ _).2 (by omega)
          _ = ((2 ^ 52 : ℤ) : ℚ) * pow2 (binade x - 52) := by
              rw [pow2_add]; congr 1; unfold pow2; norm_num
          _ ≤ (roundHalfEven (x / pow2 (binade x - 52)) : ℚ) * pow2 (binade x - 52) :=
              mul_le_mul_of_nonneg_right hr' (le_of_lt hq)
      constructor
      · intro h
        exact absurd (lt_of_le_of_lt hval h) (not_lt.2 (le_of_lt accuracy_lt_pow2))
      · intro h
        have : x < pow2 (-19) :=
          lt_of_le_of_lt h (lt_trans tolerance_lt_accuracy accuracy_lt_pow2)
        exact absurd hC (not_le.2 this)

/-- The comparator's tolerance test `std::abs(x) < accuracy` on a rounded
difference holds exactly when the exact difference is at most `tolerance` in
absolute value. -/
theorem within_tolerance_iff (x : ℚ) : |roundToDouble x| < accuracy ↔ |x| ≤ tolerance := by
  rw [abs_roundToDouble]
  exact roundMagnitude_lt_accuracy_iff |x| (abs_nonneg x)

end Binary64

/-! ## Lemmas on the comparator -/

/-- The comparator in terms of the exact difference of the relevances. -/
theorem compareDocuments_eq (a b : Document) :
    compareDocuments a b =
      if |a.relevance - b.relevance| ≤ tolerance then decide (a.rating > b.rating)
      else decide (a.relevance > b.relevance) := by
  unfold compareDocuments
  by_cases h : |a.relevance - b.relevance| ≤ tolerance
  · rw [if_pos ((Binary64.within_tolerance_iff _).2 h), if_pos h]
  · rw [if_neg (fun hc => h ((Binary64.within_tolerance_iff _).1 hc)), if_neg h]

/-- At relevances `0` and `accuracy` the rounded difference is `accuracy`
itself, which is not below `accuracy`: the pair is ordered by relevance. -/
theorem boundary_pair_by_relevance :
    compareDocuments ⟨2, accuracy, 3⟩ ⟨1, 0, 5⟩ = true ∧
    compareDocuments ⟨1, 0, 5⟩ ⟨2, accuracy, 3⟩ = false ∧
    StdSort.sort compareDocuments [⟨1, 0, 5⟩, ⟨2, accuracy, 3⟩]
      = [⟨2, accuracy, 3⟩, ⟨1, 0, 5⟩] := by
  decide!

/-- On the relevances `0`, `accuracy / 2`, `accuracy` with falling ratings the
tolerance test holds for the two neighbouring pairs and fails for the outer
pair, and the comparator cycles. -/
theorem boundary_records_cycle :
    compareDocuments ⟨1, 0, 3⟩ ⟨2, accuracy / 2, 2⟩ = true ∧
    compareDocuments ⟨2, accuracy / 2, 2⟩ ⟨3, accuracy, 1⟩ = true ∧
    compareDocuments ⟨3, accuracy, 1⟩ ⟨1, 0, 3⟩ = true ∧
    ¬ StrictWeakOn compareDocuments [⟨1, 0, 3⟩, ⟨2, accuracy / 2, 2⟩, ⟨3, accuracy, 1⟩] := by
  decide!

theorem compareDocuments_asymm (a b : Document) (h : compareDocuments a b = true) :
    compareDocuments b a = false := by
  rw [compareDocuments_eq] at h ⊢
  rw [abs_sub_comm b.relevance a.relevance]
  split at h
  · rename_i hc
    simp only [hc, if_true, decide_eq_false_iff_not, decide_eq_true_eq] at h ⊢
    omega
  · rename_i hc
    simp only [hc, if_false, decide_eq_false_iff_not, decide_eq_true_eq] at h ⊢
    exact not_lt.2 (le_of_lt h)

theorem compareDocuments_irrefl (a : Document) : compareDocuments a a = false := by
  cases h : compareDocuments a a with
  | false => rfl
  | true => have := compareDocuments_asymm a a h; rw [h] at this; cases this

theorem StrictWeakOn.neg_trans {l : List Document} (h : StrictWeakOn compareDocuments l) :
    ∀ a ∈ l, ∀ b ∈ l, ∀ c ∈ l, compareDocuments a b = false → compareDocuments b c = false →
      compareDocuments a c = false := by
  intro a ha b hb c hc hab hbc
  cases hac : compareDocuments a c with
  | false => rfl
  | true =>
    exfalso
    cases hba : compareDocuments b a with
    | true =>
      have := h.1 b hb a ha c hc hba hac
      rw [hbc] at this; cases this
    | false =>
      cases hcb : compareDocuments c b with
      | true =>
        have := h.1 a ha c hc b hb hac hcb
        rw [hab] at this; cases this
      | false =>
        have := (h.2 a ha b hb c hc hab hba hbc hcb).1
        rw [hac] at this; cases this

theorem sort_compareDocuments_pairwise (l : List Document)
    (h : StrictWeakOn compareDocuments l) :
    (StdSort.sort compareDocuments l).Pairwise (fun a b => compareDocuments b a = false) :=
  StdSort.sort_pairwise compareDocuments l
    (fun a _ b _ hab => compareDocuments_asymm a b hab) h.1 h.neg_trans

theorem appearsBefore_of_pairwise (l : List Document)
    (hp : l.Pairwise (fun a b => compareDocuments b a = false)) (a b : Document)
    (ha : a ∈ l) (hb : b ∈ l) (hab : compareDocuments a b = true) : appearsBefore a b l := by
  unfold appearsBefore
  induction l with
  | nil => simp at ha
  | cons x rest ih =>
    have hp' := List.pairwise_cons.1 hp
    rcases List.mem_cons.1 ha with rfl | ha'
    · rcases List.mem_cons.1 hb with rfl | hb'
      · rw [compareDocuments_irrefl] at hab; cases hab
      · exact List.Sublist.cons₂ _ (List.singleton_sublist.2 hb')
    · rcases List.mem_cons.1 hb with rfl | hb'
      · rw [hp'.1 a ha'] at hab; cases hab
      · exact List.Sublist.cons _ (ih hp'.2 ha' hb')

theorem accuracy_pos : (0 : ℚ) < accuracy := by unfold accuracy; norm_num

theorem accuracy_le_decimal : accuracy ≤ 1 / 1000000 := by unfold accuracy; norm_num

/-- On records whose relevances are pairwise at least `accuracy` apart the
comparator is the strict order of the relevances. -/
theorem compareDocuments_of_apart (l : List Document)
    (hfar : l.Pairwise (fun a b => accuracy ≤ |a.relevance - b.relevance|)) :
    ∀ a ∈ l, ∀ b ∈ l, compareDocuments a b = decide (a.relevance > b.relevance) := by
  have hsymm : Symmetric (fun a b : Document => accuracy ≤ |a.relevance - b.relevance|) := by
    intro a b h
    show accuracy ≤ |b.relevance - a.relevance|
    rw [abs_sub_comm]; exact h
  intro a ha b hb
  by_cases hab : a = b
  · subst hab
    rw [compareDocuments_irrefl]
    simp
  · have h := hfar.forall hsymm ha hb hab
    rw [compareDocuments_eq,
      if_neg (not_le.2 (lt_of_lt_of_le Binary64.tolerance_lt_accuracy h))]

theorem strictWeakOn_of_apart (l : List Document)
    (hfar : l.Pairwise (fun a b => accuracy ≤ |a.relevance - b.relevance|)) :
    StrictWeakOn compareDocuments l := by
  have hc := compareDocuments_of_apart l hfar
  constructor
  · intro a ha b hb c hc' hab hbc
    rw [hc a ha b hb] at hab
    rw [hc b hb c hc'] at hbc
    rw [hc a ha c hc']
    simp only [decide_eq_true_eq] at hab hbc ⊢
    exact lt_trans hbc hab
  · intro a ha b hb c hc' hab hba hbc hcb
    rw [hc a ha b hb] at hab
    rw [hc b hb a ha] at hba
    rw [hc b hb c hc'] at hbc
    rw [hc c hc' b hb] at hcb
    rw [hc a ha c hc', hc c hc' a ha]
    simp only [decide_eq_false_iff_not, not_lt, gt_iff_lt] at hab hba hbc hcb ⊢
    exact ⟨le_trans hab hbc, le_trans hcb hba⟩

theorem sort_descending_of_apart (l : List Document)
    (hfar : l.Pairwise (fun a b => accuracy ≤ |a.relevance - b.relevance|)) :
    (StdSort.sort compareDocuments l).Pairwise (fun a b => a.relevance > b.relevance) := by
  have hsorted := sort_compareDocuments_pairwise l (strictWeakOn_of_apart l hfar)
  have hfar' : (StdSort.sort compareDocuments l).Pairwise
      (fun a b => accuracy ≤ |a.relevance - b.relevance|) :=
    (StdSort.sort_perm compareDocuments l).symm.pairwise hfar
      (by intro a b h; rw [abs_sub_comm]; exact h)
  have hc := compareDocuments_of_apart l hfar
  refine (hsorted.and hfar').imp_of_mem ?_
  intro a b ha hb hab
  have ha' := (StdSort.mem_sort compareDocuments l a).1 ha
  have hb' := (StdSort.mem_sort compareDocuments l b).1 hb
  obtain ⟨h1, h2⟩ := hab
  rw [hc b hb' a ha'] at h1
  simp only [decide_eq_false_iff_not, not_lt, gt_iff_lt] at h1
  show b.relevance < a.relevance
  rcases lt_or_eq_of_le h1 with h | h
  · exact h
  · exfalso
    rw [h, sub_self, abs_zero] at h2
    exact absurd accuracy_pos (not_lt.2 h2)

namespace SearchServer

theorem FindTopDocuments_ok (PQ : String → Except Exn Query) (idf : String → ℚ)
    (s : SearchServer) (raw : String) (p : DocumentPredicate) (out : List Document)
    (h : FindTopDocuments PQ idf s raw p = .ok out) :
    ∃ q docs, PQ raw = .ok q ∧ FindAllDocuments idf s q p = .ok docs ∧
      out = (StdSort.sort compareDocuments docs).take MAX_RESULT_DOCUMENT_COUNT := by
  unfold FindTopDocuments at h
  cases hq : PQ raw with
  | error e => rw [hq] at h; cases h
  | ok q =>
    rw [hq] at h
    simp only at h
    cases hd : FindAllDocuments idf s q p with
    | error e => rw [hd] at h; cases h
    | ok docs =>
      rw [hd] at h
      simp only at h
      refine ⟨q, docs, rfl, hd, ?_⟩
      split at h
      · simp only [Except.ok.injEq] at h; exact h.symm
      · simp only [Except.ok.injEq] at h
        rw [← h]
        rename_i hlen
        exact (List.take_of_length_le (Nat.le_of_not_lt hlen)).symm

theorem FindTopDocuments_of_ok (PQ : String → Except Exn Query) (idf : String → ℚ)
    (s : SearchServer) (raw : String) (p : DocumentPredicate) (q : Query)
    (docs : List Document) (hq : PQ raw = .ok q)
    (hd : FindAllDocuments idf s q p = .ok docs) :
    FindTopDocuments PQ idf s raw p =
      .ok ((StdSort.sort compareDocuments docs).take MAX_RESULT_DOCUMENT_COUNT) := by
  unfold FindTopDocuments
  rw [hq]
  simp only
  rw [hd]
  simp only
  split
  · rfl
  · rename_i hlen
    rw [List.take_of_length_le (Nat.le_of_not_lt hlen)]

theorem FindTopDocuments_subset (PQ : String → Except Exn Query) (idf : String → ℚ)
    (s : SearchServer) (raw : String) (p : DocumentPredicate) (q : Query)
    (out : List Document) (hq : PQ raw = .ok q)
    (h : FindTopDocuments PQ idf s raw p = .ok out) :
    ∃ docs, FindAllDocuments idf s q p = .ok docs ∧ ∀ r ∈ out, r ∈ docs := by
  obtain ⟨q', docs, hq', hd, hout⟩ := FindTopDocuments_ok PQ idf s raw p out h
  rw [hq] at hq'
  cases hq'
  refine ⟨docs, hd, ?_⟩
  intro r hr
  rw [hout] at hr
  exact (StdSort.mem_sort compareDocuments docs r).1 (List.mem_of_mem_take hr)

end SearchServer

/-- The comparator cycles on the three records matched on `risingServer`:
whatever the order in which a sort leaves them, the rating rule for records
within the tolerance or the relevance rule for records beyond it is broken. -/
theorem rising_records_no_order :
    ∀ out ∈ List.permutations [(⟨1, 143841 / 301000000, 3⟩ : Document),
        ⟨2, 143841 / 300500000, 2⟩, ⟨3, 47947 / 100000000, 1⟩],
      ¬ ((∀ a ∈ out, ∀ b ∈ out, |a.relevance - b.relevance| < 1 / 1000000 → a.rating > b.rating →
            appearsBefore a b out) ∧
         (∀ a ∈ out, ∀ b ∈ out, a.relevance - b.relevance ≥ 1 / 1000000 →
            appearsBefore a b out)) := by
  decide!

/-- The same for the three records matched on `mixedServer`. -/
theorem mixed_records_no_order :
    ∀ out ∈ List.permutations [(⟨1, 143841 / 300500000, 2⟩ : Document),
        ⟨2, 47947 / 100000000, 1⟩, ⟨3, 143841 / 301000000, 3⟩],
      ¬ ((∀ a ∈ out, ∀ b ∈ out, |a.relevance - b.relevance| < 1 / 1000000 → a.rating > b.rating →
            appearsBefore a b out) ∧
         (∀ a ∈ out, ∀ b ∈ out, a.relevance - b.relevance ≥ 1 / 1000000 →
            appearsBefore a b out)) := by
  decide!

/-! ## Lemmas on construction and ingestion -/

namespace StdMap

theorem mem_setInsert {K : Type} [LinearOrder K] (k a : K) (l : List K) :
    a ∈ setInsert k l ↔ a = k ∨ a ∈ l := by
  induction l with
  | nil => simp [setInsert]
  | cons k' rest ih =>
    unfold setInsert
    by_cases h1 : k < k'
    · simp [h1]
    · by_cases h2 : k = k'
      · subst h2; simp
      · simp only [h1, h2, if_false, List.mem_cons, ih]; tauto

theorem setInsert_pairwise {K : Type} [LinearOrder K] (k : K) (l : List K)
    (hl : l.Pairwise (fun a b => a < b)) : (setInsert k l).Pairwise (fun a b => a < b) := by
  induction l with
  | nil => simp [setInsert]
  | cons k' rest ih =>
    have hl' := List.pairwise_cons.1 hl
    unfold setInsert
    by_cases h1 : k < k'
    · simp only [h1, if_true]
      rw [List.pairwise_cons]
      refine ⟨?_, hl⟩
      intro x hx
      rcases List.mem_cons.1 hx with rfl | hx'
      · exact h1
      · exact lt_trans h1 (hl'.1 x hx')
    · by_cases h2 : k = k'
      · subst h2; simpa using hl
      · simp only [h1, h2, if_false]
        have hlt : k' < k := lt_of_le_of_ne (not_lt.1 h1) (fun h => h2 h.symm)
        rw [List.pairwise_cons]
        refine ⟨?_, ih hl'.2⟩
        intro x hx
        rcases (mem_setInsert k x rest).1 hx with rfl | hx'
        · exact hlt
        · exact hl'.1 x hx'

theorem setInsert_perm {K : Type} [LinearOrder K] (k : K) (l : List K) (hk : k ∉ l) :
    (setInsert k l).Perm (k :: l) := by
  induction l with
  | nil => simp [setInsert]
  | cons k' rest ih =>
    have hne : k ≠ k' := fun h => hk (by rw [h]; exact List.mem_cons_self _ _)
    have hrest : k ∉ rest := fun h => hk (List.mem_cons_of_mem _ h)
    unfold setInsert
    by_cases h1 : k < k'
    · simp [h1]
    · simp only [h1, hne, if_false]
      exact ((ih hrest).cons k').trans (List.Perm.swap k k' rest)

end StdMap

namespace SearchServer

theorem mem_foldl_setInsert (strings : List String) :
    ∀ (acc : List String) (w : String),
      w ∈ strings.foldl (fun non_empty_strings str =>
          if str = "" then non_empty_strings else StdMap.setInsert str non_empty_strings) acc ↔
        w ∈ acc ∨ (w ∈ strings ∧ w ≠ "") := by
  induction strings with
  | nil => intro acc w; simp
  | cons str rest ih =>
    intro acc w
    simp only [List.foldl_cons]
    rw [ih]
    by_cases hs : str = ""
    · subst hs
      simp only [if_true, List.mem_cons]
      constructor
      · rintro (h | ⟨h1, h2⟩)
        · exact Or.inl h
        · exact Or.inr ⟨Or.inr h1, h2⟩
      · rintro (h | ⟨h1 | h1, h2⟩)
        · exact Or.inl h
        · exact absurd h1 h2
        · exact Or.inr ⟨h1, h2⟩
    · simp only [hs, if_false, StdMap.mem_setInsert, List.mem_cons]
      constructor
      · rintro ((h | h) | ⟨h1, h2⟩)
        · exact Or.inr ⟨Or.inl h, by rw [h]; exact hs⟩
        · exact Or.inl h
        · exact Or.inr ⟨Or.inr h1, h2⟩
      · rintro (h | ⟨h1 | h1, h2⟩)
        · exact Or.inl (Or.inr h)
        · exact Or.inl (Or.inl h1)
        · exact Or.inr ⟨h1, h2⟩

theorem foldl_setInsert_pairwise (strings : List String) :
    ∀ acc : List String, acc.Pairwise (fun a b => a < b) →
      (strings.foldl (fun non_empty_strings str =>
          if str = "" then non_empty_strings else StdMap.setInsert str non_empty_strings)
        acc).Pairwise (fun a b => a < b) := by
  induction strings with
  | nil => intro acc h; exact h
  | cons str rest ih =>
    intro acc h
    simp only [List.foldl_cons]
    apply ih
    by_cases hs : str = ""
    · simp only [hs, if_true]; exact h
    · simp only [hs, if_false]; exact StdMap.setInsert_pairwise str acc h

theorem mem_MakeUniqueNonEmptyStrings (strings : List String) (w : String) :
    w ∈ MakeUniqueNonEmptyStrings strings ↔ w ∈ strings ∧ w ≠ "" := by
  unfold MakeUniqueNonEmptyStrings
  rw [mem_foldl_setInsert]
  simp

theorem MakeUniqueNonEmptyStrings_pairwise (strings : List String) :
    (MakeUniqueNonEmptyStrings strings).Pairwise (fun a b => a < b) :=
  foldl_setInsert_pairwise strings [] List.Pairwise.nil

theorem all_valid_iff (strings : List String) :
    (MakeUniqueNonEmptyStrings strings).all IsValidWord = true ↔
      ¬ ∃ w ∈ strings, w ≠ "" ∧ IsValidWord w = false := by
  rw [List.all_eq_true]
  constructor
  · rintro h ⟨w, hw, hne, hbad⟩
    have := h w ((mem_MakeUniqueNonEmptyStrings strings w).2 ⟨hw, hne⟩)
    rw [hbad] at this; cases this
  · intro h w hw
    obtain ⟨h1, h2⟩ := (mem_MakeUniqueNonEmptyStrings strings w).1 hw
    cases hv : IsValidWord w with
    | true => rfl
    | false => exact absurd ⟨w, h1, h2, hv⟩ h

theorem foldl_indexWord_documents (document_id : Int) (x : ℚ) (words : List String) :
    ∀ s : SearchServer,
      (words.foldl (indexWord document_id x) s).documents_ = s.documents_ ∧
      (words.foldl (indexWord document_id x) s).document_ids_ = s.document_ids_ := by
  induction words with
  | nil => intro s; exact ⟨rfl, rfl⟩
  | cons w rest ih =>
    intro s
    simp only [List.foldl_cons]
    obtain ⟨h1, h2⟩ := ih (indexWord document_id x s w)
    exact ⟨h1, h2⟩

theorem AddDocument_ok (s s' : SearchServer) (document_id : Int) (document : String)
    (status : DocumentStatus) (ratings : List Int)
    (h : AddDocument s document_id document status ratings = .ok s') :
    0 ≤ document_id ∧ document_id ∉ StdMap.keys s.documents_ ∧
      s'.document_ids_ = StdMap.setInsert document_id s.document_ids_ ∧
      s'.documents_ =
        StdMap.emplace document_id ⟨ComputeAverageRating ratings, status⟩ s.documents_ := by
  unfold AddDocument at h
  split at h
  · cases h
  · rename_i hguard
    rw [not_or] at hguard
    have hid : 0 ≤ document_id := not_lt.1 hguard.1
    have hnew : document_id ∉ StdMap.keys s.documents_ := by
      rw [← StdMap.find_isSome_iff]; exact hguard.2
    cases hw : SplitIntoWordsNoStop s document with
    | error e => rw [hw] at h; cases h
    | ok words =>
      rw [hw] at h
      simp only [Except.ok.injEq] at h
      obtain ⟨h1, h2⟩ :=
        foldl_indexWord_documents document_id (1 / (words.length : ℚ)) words s
      subst h
      simp only
      rw [h1, h2]
      exact ⟨hid, hnew, rfl, rfl⟩

theorem addAll_ids (additions : List Addition) :
    ∀ s s', IdsConsistent s → addAll s additions = .ok s' →
      IdsConsistent s' ∧
        s'.document_ids_.Perm (additions.map (fun a => a.document_id) ++ s.document_ids_) := by
  induction additions with
  | nil =>
    intro s s' hs h
    simp only [addAll, Except.ok.injEq] at h
    subst h
    exact ⟨hs, by simp⟩
  | cons a rest ih =>
    intro s s' hs h
    unfold addAll at h
    cases ha : AddDocument s a.document_id a.document a.status a.ratings with
    | error e => rw [ha] at h; cases h
    | ok s1 =>
      rw [ha] at h
      simp only at h
      obtain ⟨_, hnew, hids, hdocs⟩ := AddDocument_ok s s1 _ _ _ _ ha
      have hnotin : a.document_id ∉ s.document_ids_ := fun hm => hnew ((hs.2 _).1 hm)
      have hs1 : IdsConsistent s1 := by
        constructor
        · rw [hids]; exact StdMap.setInsert_pairwise _ _ hs.1
        · intro x
          rw [hids, hdocs, StdMap.mem_setInsert]
          unfold StdMap.emplace
          rw [StdMap.mem_keys_modify, hs.2 x]
      obtain ⟨hinv, hperm⟩ := ih s1 s' hs1 h
      refine ⟨hinv, hperm.trans ?_⟩
      rw [hids]
      simp only [List.map_cons, List.cons_append]
      exact ((StdMap.setInsert_perm _ _ hnotin).append_left _).trans List.perm_middle

theorem new_ok (stop_words : List String) (s : SearchServer)
    (h : SearchServer.new stop_words = .ok s) :
    s = { stop_words_ := MakeUniqueNonEmptyStrings stop_words
          word_to_document_freqs_ := []
          document_to_word_freqs_ := []
          documents_ := []
          document_ids_ := [] } := by
  unfold SearchServer.new at h
  simp only at h
  split at h
  · cases h
  · simp only [Except.ok.injEq] at h
    exact h.symm

end SearchServer

/-! ## Lemmas on the stop-word set -/

namespace SearchServer

theorem new_ok_valid (stop_words : List String) (s : SearchServer)
    (h : SearchServer.new stop_words = .ok s) :
    s.stop_words_ = MakeUniqueNonEmptyStrings stop_words ∧
      (MakeUniqueNonEmptyStrings stop_words).all IsValidWord = true := by
  have hs := new_ok stop_words s h
  refine ⟨by rw [hs], ?_⟩
  cases hall : (MakeUniqueNonEmptyStrings stop_words).all IsValidWord with
  | true => rfl
  | false =>
    unfold SearchServer.new at h
    simp only [hall] at h
    cases h

theorem IsValidWord_chars (word : String) (h : IsValidWord word = true) :
    ∀ c ∈ word.data, c.isWhitespace = false ∧ ¬ c.toNat < 32 := by
  unfold IsValidWord at h
  rw [List.all_eq_true] at h
  intro c hc
  have h1 := h c hc
  rw [Bool.and_eq_true] at h1
  exact ⟨by simpa using h1.1, of_decide_eq_true h1.2⟩

theorem IsValidWord_of_whitespace (word : String) (c : Char) (hc : c ∈ word.data)
    (hws : c.isWhitespace = true) : IsValidWord word = false := by
  cases hv : IsValidWord word with
  | false => rfl
  | true =>
    have := (IsValidWord_chars word hv c hc).1
    rw [hws] at this
    cases this

theorem new_error_of_invalid (stop_words : List String) (w : String) (hw : w ∈ stop_words)
    (hne : w ≠ "") (hbad : IsValidWord w = false) :
    SearchServer.new stop_words = .error Exn.invalid_argument := by
  have hall : ¬ (MakeUniqueNonEmptyStrings stop_words).all IsValidWord = true :=
    fun h => ((all_valid_iff stop_words).1 h) ⟨w, hw, hne, hbad⟩
  unfold SearchServer.new
  simp only [hall, not_false_eq_true, if_true]
  rfl

theorem splitChars_no_whitespace (chars : List Char) :
    ∀ word : List Char, (∀ c ∈ word, c.isWhitespace = false) →
      ∀ w ∈ splitChars chars word, ∀ c ∈ w.data, c.isWhitespace = false := by
  induction chars with
  | nil =>
    intro word hword w hw c hc
    unfold splitChars at hw
    split at hw
    · simp at hw
    · rw [List.mem_singleton] at hw
      subst hw
      exact hword c (List.mem_reverse.1 hc)
  | cons ch rest ih =>
    intro word hword w hw c hc
    unfold splitChars at hw
    by_cases hws : ch.isWhitespace = true
    · rw [if_pos hws] at hw
      split at hw
      · exact ih [] (by simp) w hw c hc
      · rcases List.mem_cons.1 hw with rfl | hw'
        · exact hword c (List.mem_reverse.1 hc)
        · exact ih [] (by simp) w hw' c hc
    · rw [if_neg hws] at hw
      refine ih (ch :: word) ?_ w hw c hc
      intro c' hc'
      rcases List.mem_cons.1 hc' with rfl | h'
      · simpa using hws
      · exact hword c' h'

theorem SplitIntoWords_no_whitespace (text : String) :
    ∀ w ∈ SplitIntoWords text, ∀ c ∈ w.data, c.isWhitespace = false :=
  splitChars_no_whitespace text.data [] (by simp)

end SearchServer

/-! ## Totality and order of the emitted records -/

namespace SearchServer

theorem scorePostings_ascending (s : SearchServer) (p : DocumentPredicate) (x : ℚ)
    (postings : List (Int × ℚ)) :
    ∀ acc acc', scorePostings s p x postings acc = .ok acc' → StdMap.Ascending acc →
      StdMap.Ascending acc' := by
  induction postings with
  | nil =>
    intro acc acc' h hacc
    simp only [scorePostings, Except.ok.injEq] at h
    subst h; exact hacc
  | cons e rest ih =>
    obtain ⟨d0, tf0⟩ := e
    intro acc acc' h hacc
    unfold scorePostings at h
    cases hd : StdMap.find d0 s.documents_ with
    | none => rw [hd] at h; cases h
    | some data =>
      rw [hd] at h
      simp only at h
      refine ih _ _ h ?_
      split
      · exact StdMap.ascending_modify _ _ _ _ hacc
      · exact hacc

theorem scorePlusWords_ascending (idf : String → ℚ) (s : SearchServer)
    (p : DocumentPredicate) (words : List String) :
    ∀ acc acc', scorePlusWords idf s p words acc = .ok acc' → StdMap.Ascending acc →
      StdMap.Ascending acc' := by
  induction words with
  | nil =>
    intro acc acc' h hacc
    simp only [scorePlusWords, Except.ok.injEq] at h
    subst h; exact hacc
  | cons w rest ih =>
    intro acc acc' h hacc
    unfold scorePlusWords at h
    cases hw : StdMap.find w s.word_to_document_freqs_ with
    | none => rw [hw] at h; exact ih _ _ h hacc
    | some postings =>
      rw [hw] at h
      simp only at h
      cases hs : scorePostings s p (idf w) postings acc with
      | error e => rw [hs] at h; cases h
      | ok acc1 =>
        rw [hs] at h
        exact ih _ _ h (scorePostings_ascending s p (idf w) postings acc acc1 hs hacc)

theorem scorePostings_total (s : SearchServer) (p : DocumentPredicate) (x : ℚ)
    (postings : List (Int × ℚ))
    (hmeta : ∀ d ∈ StdMap.keys postings, (StdMap.find d s.documents_).isSome = true) :
    ∀ acc, ∃ acc', scorePostings s p x postings acc = .ok acc' := by
  induction postings with
  | nil => intro acc; exact ⟨acc, rfl⟩
  | cons e rest ih =>
    obtain ⟨d0, tf0⟩ := e
    intro acc
    have hd0 := hmeta d0 (by simp [StdMap.keys])
    obtain ⟨data, hdata⟩ := Option.isSome_iff_exists.1 hd0
    unfold scorePostings
    rw [hdata]
    exact ih (fun d hd => hmeta d (by
      simp only [StdMap.keys, List.map_cons, List.mem_cons]; exact Or.inr hd)) _

theorem scorePlusWords_total (idf : String → ℚ) (s : SearchServer) (p : DocumentPredicate)
    (hmeta : PostedHaveMetadata s) (words : List String) :
    ∀ acc, ∃ acc', scorePlusWords idf s p words acc = .ok acc' := by
  induction words with
  | nil => intro acc; exact ⟨acc, rfl⟩
  | cons w rest ih =>
    intro acc
    unfold scorePlusWords
    cases hw : StdMap.find w s.word_to_document_freqs_ with
    | none => exact ih acc
    | some postings =>
      simp only
      obtain ⟨acc1, h1⟩ := scorePostings_total s p (idf w) postings
        (hmeta _ (StdMap.find_some_mem _ _ _ hw)) acc
      rw [h1]
      exact ih acc1

/-- The ids of the emitted records are strictly ascending, and a document id is
emitted exactly when the predicate holds on it, some plus-word posts it and no
minus-word does. -/
theorem FindAllDocuments_ids (idf : String → ℚ) (s : SearchServer) (q : Query)
    (p : DocumentPredicate) (docs : List Document)
    (h : FindAllDocuments idf s q p = .ok docs) :
    (docs.map (fun r => r.id)).Pairwise (fun a b => a < b) ∧
      ∀ d, d ∈ docs.map (fun r => r.id) ↔
        (passes s p d = true ∧ ∃ w ∈ q.plus_words, posted s w d = true) ∧
          ∀ w ∈ q.minus_words, posted s w d = false := by
  obtain ⟨acc, hs, he⟩ := FindAllDocuments_ok idf s q p docs h
  obtain ⟨hmap, _⟩ := emitDocuments_ok s _ docs he
  have hasc : StdMap.Ascending (eraseMinusWords s q.minus_words acc) :=
    eraseMinusWords_ascending s q.minus_words acc
      (scorePlusWords_ascending idf s p q.plus_words [] acc hs
        (by simp [StdMap.Ascending, StdMap.keys]))
  have hids : docs.map (fun r => r.id) = StdMap.keys (eraseMinusWords s q.minus_words acc) := by
    rw [← hmap]
    simp [StdMap.keys, List.map_map, Function.comp_def]
  rw [hids]
  refine ⟨hasc, ?_⟩
  intro d
  rw [eraseMinusWords_keys, scorePlusWords_keys idf s p q.plus_words [] acc hs]
  simp [StdMap.keys]

theorem FindAllDocuments_total (idf : String → ℚ) (s : SearchServer) (q : Query)
    (p : DocumentPredicate) (hmeta : PostedHaveMetadata s) :
    ∃ docs, FindAllDocuments idf s q p = .ok docs := by
  obtain ⟨acc, hrun⟩ := scorePlusWords_total idf s p hmeta q.plus_words []
  have hkeys : ∀ d ∈ StdMap.keys (eraseMinusWords s q.minus_words acc),
      (StdMap.find d s.documents_).isSome = true := by
    intro d hd
    rw [eraseMinusWords_keys, scorePlusWords_keys idf s p q.plus_words [] acc hrun] at hd
    rcases hd.1 with h | h
    · simp [StdMap.keys] at h
    · exact passes_isSome s p d h.1
  obtain ⟨docs, hdocs⟩ := emitDocuments_total s _ hkeys
  refine ⟨docs, ?_⟩
  unfold FindAllDocuments
  rw [hrun]
  exact hdocs

end SearchServer

/-! ## Words absent from the index -/

namespace StdMap

theorem filter_setInsert_absent {K : Type} [LinearOrder K] (f : K → Bool) (k : K)
    (hk : f k = false) (l : List K) : (setInsert k l).filter f = l.filter f := by
  induction l with
  | nil => simp [setInsert, hk]
  | cons k' rest ih =>
    unfold setInsert
    by_cases h1 : k < k'
    · simp only [h1, if_true]
      rw [List.filter_cons]
      simp [hk]
    · by_cases h2 : k = k'
      · subst h2
        simp only [lt_irrefl, if_false, if_true]
      · simp only [h1, h2, if_false]
        rw [List.filter_cons, List.filter_cons, ih]

end StdMap

namespace SearchServer

theorem scorePlusWords_filter (idf : String → ℚ) (s : SearchServer) (p : DocumentPredicate)
    (words : List String) :
    ∀ acc, scorePlusWords idf s p words acc =
      scorePlusWords idf s p
        (words.filter (fun w => (StdMap.find w s.word_to_document_freqs_).isSome)) acc := by
  induction words with
  | nil => intro acc; rfl
  | cons w rest ih =>
    intro acc
    cases hw : StdMap.find w s.word_to_document_freqs_ with
    | none =>
      rw [List.filter_cons]
      simp only [hw, Option.isSome_none, Bool.false_eq_true, if_false]
      conv_lhs => unfold scorePlusWords
      rw [hw]
      exact ih acc
    | some postings =>
      rw [List.filter_cons]
      simp only [hw, Option.isSome_some, if_true]
      conv_lhs => unfold scorePlusWords
      conv_rhs => unfold scorePlusWords
      rw [hw]
      simp only
      cases scorePostings s p (idf w) postings acc with
      | error e => rfl
      | ok acc1 => exact ih acc1

theorem eraseMinusWords_filter (s : SearchServer) (words : List String) :
    ∀ acc, eraseMinusWords s words acc =
      eraseMinusWords s
        (words.filter (fun w => (StdMap.find w s.word_to_document_freqs_).isSome)) acc := by
  induction words with
  | nil => intro acc; rfl
  | cons w rest ih =>
    intro acc
    cases hw : StdMap.find w s.word_to_document_freqs_ with
    | none =>
      rw [List.filter_cons]
      simp only [hw, Option.isSome_none, Bool.false_eq_true, if_false]
      conv_lhs => unfold eraseMinusWords
      rw [hw]
      exact ih acc
    | some postings =>
      rw [List.filter_cons]
      simp only [hw, Option.isSome_some, if_true]
      conv_lhs => unfold eraseMinusWords
      conv_rhs => unfold eraseMinusWords
      rw [hw]
      exact ih _

theorem eraseMinusWords_nil (s : SearchServer) (words : List String) :
    eraseMinusWords s words [] = [] := by
  rw [List.eq_nil_iff_forall_not_mem]
  intro e he
  have hk : e.1 ∈ StdMap.keys (eraseMinusWords s words []) := List.mem_map.2 ⟨e, he, rfl⟩
  rw [eraseMinusWords_keys] at hk
  simp [StdMap.keys] at hk

/-- The result of `FindAllDocuments` depends on the query only through those of
its words that are keys of the inverted index. -/
theorem FindAllDocuments_congr (idf : String → ℚ) (s : SearchServer) (q q' : Query)
    (p : DocumentPredicate)
    (hplus : q'.plus_words.filter (fun w => (StdMap.find w s.word_to_document_freqs_).isSome)
      = q.plus_words.filter (fun w => (StdMap.find w s.word_to_document_freqs_).isSome))
    (hminus : q'.minus_words.filter (fun w => (StdMap.find w s.word_to_document_freqs_).isSome)
      = q.minus_words.filter (fun w => (StdMap.find w s.word_to_document_freqs_).isSome)) :
    FindAllDocuments idf s q' p = FindAllDocuments idf s q p := by
  unfold FindAllDocuments
  rw [scorePlusWords_filter idf s p q'.plus_words, scorePlusWords_filter idf s p q.plus_words,
    hplus]
  cases scorePlusWords idf s p
      (q.plus_words.filter (fun w => (StdMap.find w s.word_to_document_freqs_).isSome)) [] with
  | error e => rfl
  | ok acc =>
    simp only
    rw [eraseMinusWords_filter s q'.minus_words, eraseMinusWords_filter s q.minus_words, hminus]

theorem FindTopDocuments_congr (PQ PQ' : String → Except Exn Query) (idf : String → ℚ)
    (s : SearchServer) (raw raw' : String) (p : DocumentPredicate) (q q' : Query)
    (hq : PQ raw = .ok q) (hq' : PQ' raw' = .ok q')
    (hall : FindAllDocuments idf s q' p = FindAllDocuments idf s q p) :
    FindTopDocuments PQ' idf s raw' p = FindTopDocuments PQ idf s raw p := by
  unfold FindTopDocuments
  rw [hq, hq']
  simp only
  rw [hall]

end SearchServer

/-! ## Records of two runs -/

namespace SearchServer

theorem record_eq_of_id_of_nodup (docs : List Document)
    (hnd : (docs.map (fun r => r.id)).Nodup) (r r' : Document) (hr : r ∈ docs)
    (hr' : r' ∈ docs) (hid : r.id = r'.id) : r = r' :=
  List.inj_on_of_nodup_map hnd hr hr' hid

end SearchServer

/-! ## The claims -/

open SearchServer

/-- C1, minus-word veto: no record returned by `FindAllDocuments`, and hence
none returned by `FindTopDocuments`, has its id in the inverted-index postings
of a minus-word of the parsed query, whatever the plus-words are. -/
theorem minus_word_veto (PQ : String → Except Exn Query) (idf : String → ℚ)
    (s : SearchServer) (p : DocumentPredicate) (raw : String) (q : Query)
    (hq : PQ raw = .ok q) :
    (∀ docs, FindAllDocuments idf s q p = .ok docs →
      ∀ r ∈ docs, ∀ w ∈ q.minus_words, posted s w r.id = false) ∧
    (∀ out, FindTopDocuments PQ idf s raw p = .ok out →
      ∀ r ∈ out, ∀ w ∈ q.minus_words, posted s w r.id = false) := by
  constructor
  · intro docs h r hr
    exact (FindAllDocuments_mem idf s q p docs h r hr).2.2.1
  · intro out h r hr
    obtain ⟨docs, hd, hsub⟩ := FindTopDocuments_subset PQ idf s raw p q out hq h
    exact (FindAllDocuments_mem idf s q p docs hd r (hsub r hr)).2.2.1

/-- Witness of C1 on the server with documents 1 = "cat dog" and 2 = "cat" and
the query "cat -dog": only document 2 is returned. -/
theorem minus_word_veto_witness :
    FindAllDocuments Examples.catDogIdf Examples.catDogServer Examples.catMinusDog
        Examples.actualOnly = .ok [⟨2, 0, 3⟩] ∧
    FindTopDocuments (Examples.parseAs "cat -dog" Examples.catMinusDog) Examples.catDogIdf Examples.catDogServer
        "cat -dog" Examples.actualOnly = .ok [⟨2, 0, 3⟩] ∧
    posted Examples.catDogServer "dog" 1 = true ∧
    posted Examples.catDogServer "dog" 2 = false :=
  ⟨by decide!, by decide!, by decide!,
    (minus_word_veto (Examples.parseAs "cat -dog" Examples.catMinusDog) Examples.catDogIdf Examples.catDogServer
      Examples.actualOnly "cat -dog" Examples.catMinusDog (by decide!)).2 [⟨2, 0, 3⟩]
      (by decide!) ⟨2, 0, 3⟩ (by simp) "dog" (by simp [Examples.catMinusDog])⟩

/-- C2, relevance value: when every posting list holds each document id once
and every posted id has metadata, `FindAllDocuments` returns, and each record
it emits for document `d` has as relevance the sum of `tf(w, d) * idf(w)` over
exactly the plus-words `w` whose postings contain `d`, and as rating the rating
stored for `d`. -/
theorem relevance_value (idf : String → ℚ) (s : SearchServer) (q : Query)
    (p : DocumentPredicate) (hq : q.plus_words.Nodup) (hnd : PostingsDistinct s)
    (hmeta : PostedHaveMetadata s) :
    ∃ docs, FindAllDocuments idf s q p = .ok docs ∧
      ∀ r ∈ docs,
        r.relevance =
          ∑ w ∈ q.plus_words.toFinset.filter (fun w => posted s w r.id = true),
            termFreq s w r.id * idf w ∧
        ∃ data, StdMap.find r.id s.documents_ = some data ∧ r.rating = data.rating := by
  obtain ⟨docs, acc, hrun, hasc, hmap, hrat, hfind⟩ := FindAllDocuments_spec idf s q p hnd hmeta
  refine ⟨docs, hrun, ?_⟩
  intro r hr
  refine ⟨?_, hrat r hr⟩
  have hmem : (r.id, r.relevance) ∈ acc := by
    rw [← hmap]; exact List.mem_map.2 ⟨r, hr, rfl⟩
  have hf := StdMap.find_of_mem_nodup _ _ _ hasc.nodup hmem
  rw [hfind r.id] at hf
  split at hf
  · simp only [Option.some.injEq] at hf
    rw [← hf]
    exact sum_plus_words s idf r.id q.plus_words hq
  · cases hf

/-- Witness of C2 on the server with documents 1 = "cat dog" and 2 = "cat" and
the plus-words "cat" and "dog". -/
theorem relevance_value_witness :
    FindAllDocuments Examples.catDogIdf Examples.catDogServer ⟨["cat", "dog"], []⟩
        Examples.actualOnly = .ok [⟨1, 693147 / 2000000, 5⟩, ⟨2, 0, 3⟩] ∧
    ∃ docs, FindAllDocuments Examples.catDogIdf Examples.catDogServer ⟨["cat", "dog"], []⟩
        Examples.actualOnly = .ok docs ∧
      ∀ r ∈ docs,
        r.relevance =
          ∑ w ∈ (["cat", "dog"] : List String).toFinset.filter
              (fun w => posted Examples.catDogServer w r.id = true),
            termFreq Examples.catDogServer w r.id * Examples.catDogIdf w ∧
        ∃ data, StdMap.find r.id Examples.catDogServer.documents_ = some data ∧
          r.rating = data.rating :=
  ⟨by decide!,
    relevance_value Examples.catDogIdf Examples.catDogServer ⟨["cat", "dog"], []⟩
      Examples.actualOnly (by decide) (by decide!) (by decide!)⟩

/-- C3 as stated fails: on `risingServer` the query "cat" matches documents 1,
2, 3 whose relevances rise in steps below `1e-6` while their ratings fall;
documents 2 and 3 are within the tolerance and 2 has the higher rating, yet
the returned sequence is 3, 1, 2. -/
theorem ranking_stability_counterexample :
    FindTopDocuments (Examples.parseAs "cat" Examples.catQuery) Examples.threeCatsIdf
        Examples.risingServer "cat" Examples.actualOnly
      = .ok [⟨3, 47947 / 100000000, 1⟩, ⟨1, 143841 / 301000000, 3⟩,
             ⟨2, 143841 / 300500000, 2⟩] ∧
    |(143841 / 300500000 : ℚ) - 47947 / 100000000| < 1 / 1000000 ∧
    |Binary64.roundToDouble (143841 / 300500000 - 47947 / 100000000)| < accuracy ∧
    (2 : Int) > 1 ∧
    ¬ appearsBefore ⟨2, 143841 / 300500000, 2⟩ ⟨3, 47947 / 100000000, 1⟩
        [⟨3, 47947 / 100000000, 1⟩, ⟨1, 143841 / 301000000, 3⟩,
         ⟨2, 143841 / 300500000, 2⟩] := by
  refine ⟨by decide!, by decide!, by decide!, by decide, by decide!⟩

/-- C3 as amended: when the ranking comparator is a strict weak ordering on the
records emitted by `FindAllDocuments`, `FindTopDocuments` returns, and of any
two returned records that pass the comparator's tolerance test (the rounded
`double` difference of the relevances is below `accuracy` in absolute value)
the one with the higher rating appears first. -/
theorem ranking_stability (PQ : String → Except Exn Query) (idf : String → ℚ)
    (s : SearchServer) (raw : String) (p : DocumentPredicate) (q : Query)
    (docs : List Document) (hq : PQ raw = .ok q)
    (hd : FindAllDocuments idf s q p = .ok docs)
    (hswo : StrictWeakOn compareDocuments docs) :
    ∃ out, FindTopDocuments PQ idf s raw p = .ok out ∧
      ∀ a ∈ out, ∀ b ∈ out,
        |Binary64.roundToDouble (a.relevance - b.relevance)| < accuracy →
        a.rating > b.rating → appearsBefore a b out := by
  refine ⟨_, FindTopDocuments_of_ok PQ idf s raw p q docs hq hd, ?_⟩
  intro a ha b hb hclose hrating
  have hp := (sort_compareDocuments_pairwise docs hswo).sublist
    (List.take_sublist MAX_RESULT_DOCUMENT_COUNT _)
  refine appearsBefore_of_pairwise _ hp a b ha hb ?_
  unfold compareDocuments
  rw [if_pos hclose]
  exact decide_eq_true hrating

/-- Witness of C3 as amended: on `mixedServer` restricted to documents 1 and
3, which are within the tolerance, document 3 (rating 3) is moved in front of
document 1 (rating 2). -/
theorem ranking_stability_witness :
    FindAllDocuments Examples.threeCatsIdf Examples.mixedServer Examples.catQuery
        (Examples.onlyIds 1 3)
      = .ok [⟨1, 143841 / 300500000, 2⟩, ⟨3, 143841 / 301000000, 3⟩] ∧
    FindTopDocuments (Examples.parseAs "cat" Examples.catQuery) Examples.threeCatsIdf
        Examples.mixedServer "cat" (Examples.onlyIds 1 3)
      = .ok [⟨3, 143841 / 301000000, 3⟩, ⟨1, 143841 / 300500000, 2⟩] ∧
    ∃ out, FindTopDocuments (Examples.parseAs "cat" Examples.catQuery) Examples.threeCatsIdf
        Examples.mixedServer "cat" (Examples.onlyIds 1 3) = .ok out ∧
      ∀ a ∈ out, ∀ b ∈ out,
        |Binary64.roundToDouble (a.relevance - b.relevance)| < accuracy →
        a.rating > b.rating → appearsBefore a b out :=
  ⟨by decide!, by decide!,
    ranking_stability (Examples.parseAs "cat" Examples.catQuery) Examples.threeCatsIdf
      Examples.mixedServer "cat" (Examples.onlyIds 1 3) Examples.catQuery
      [⟨1, 143841 / 300500000, 2⟩, ⟨3, 143841 / 301000000, 3⟩]
      (by decide!) (by decide!) (by decide!)⟩

/-- C4 as stated fails: on `mixedServer` the query "cat" matches documents 1,
2, 3; the relevance of document 2 exceeds that of document 3 by more than
`1e-6`, yet the returned sequence is 3, 1, 2. -/
theorem descending_relevance_counterexample :
    FindTopDocuments (Examples.parseAs "cat" Examples.catQuery) Examples.threeCatsIdf
        Examples.mixedServer "cat" Examples.actualOnly
      = .ok [⟨3, 143841 / 301000000, 3⟩, ⟨1, 143841 / 300500000, 2⟩,
             ⟨2, 47947 / 100000000, 1⟩] ∧
    (47947 / 100000000 : ℚ) - 143841 / 301000000 ≥ 1 / 1000000 ∧
    ¬ appearsBefore ⟨2, 47947 / 100000000, 1⟩ ⟨3, 143841 / 301000000, 3⟩
        [⟨3, 143841 / 301000000, 3⟩, ⟨1, 143841 / 300500000, 2⟩,
         ⟨2, 47947 / 100000000, 1⟩] := by
  refine ⟨by decide!, by decide!, by decide!⟩

/-- C4 as amended: when the ranking comparator is a strict weak ordering on the
records emitted by `FindAllDocuments`, `FindTopDocuments` returns, and of any
two returned records whose relevances differ by at least `1e-6` the one with
the higher relevance appears first. -/
theorem descending_relevance (PQ : String → Except Exn Query) (idf : String → ℚ)
    (s : SearchServer) (raw : String) (p : DocumentPredicate) (q : Query)
    (docs : List Document) (hq : PQ raw = .ok q)
    (hd : FindAllDocuments idf s q p = .ok docs)
    (hswo : StrictWeakOn compareDocuments docs) :
    ∃ out, FindTopDocuments PQ idf s raw p = .ok out ∧
      ∀ a ∈ out, ∀ b ∈ out, a.relevance - b.relevance ≥ accuracy → appearsBefore a b out := by
  refine ⟨_, FindTopDocuments_of_ok PQ idf s raw p q docs hq hd, ?_⟩
  intro a ha b hb hfar
  have hp := (sort_compareDocuments_pairwise docs hswo).sublist
    (List.take_sublist MAX_RESULT_DOCUMENT_COUNT _)
  refine appearsBefore_of_pairwise _ hp a b ha hb ?_
  have hpos : 0 < a.relevance - b.relevance := lt_of_lt_of_le accuracy_pos hfar
  rw [compareDocuments_eq, if_neg (by
    rw [abs_of_pos hpos]
    exact not_le.2 (lt_of_lt_of_le Binary64.tolerance_lt_accuracy hfar))]
  exact decide_eq_true (sub_pos.1 hpos)

/-- Witness of C4 as amended: on `risingServer` restricted to documents 1 and
3, which are more than the tolerance apart, document 3 is moved in front. -/
theorem descending_relevance_witness :
    FindAllDocuments Examples.threeCatsIdf Examples.risingServer Examples.catQuery
        (Examples.onlyIds 1 3)
      = .ok [⟨1, 143841 / 301000000, 3⟩, ⟨3, 47947 / 100000000, 1⟩] ∧
    FindTopDocuments (Examples.parseAs "cat" Examples.catQuery) Examples.threeCatsIdf
        Examples.risingServer "cat" (Examples.onlyIds 1 3)
      = .ok [⟨3, 47947 / 100000000, 1⟩, ⟨1, 143841 / 301000000, 3⟩] ∧
    ∃ out, FindTopDocuments (Examples.parseAs "cat" Examples.catQuery) Examples.threeCatsIdf
        Examples.risingServer "cat" (Examples.onlyIds 1 3) = .ok out ∧
      ∀ a ∈ out, ∀ b ∈ out, a.relevance - b.relevance ≥ accuracy → appearsBefore a b out :=
  ⟨by decide!, by decide!,
    descending_relevance (Examples.parseAs "cat" Examples.catQuery) Examples.threeCatsIdf
      Examples.risingServer "cat" (Examples.onlyIds 1 3) Examples.catQuery
      [⟨1, 143841 / 301000000, 3⟩, ⟨3, 47947 / 100000000, 1⟩]
      (by decide!) (by decide!) (by decide!)⟩

/-- C5, top-K cap: the sequence returned by `FindTopDocuments` has length
`min 5 n`, where `n` is the number of records emitted by `FindAllDocuments`;
in particular it never exceeds 5. -/
theorem top_k_cap (PQ : String → Except Exn Query) (idf : String → ℚ)
    (s : SearchServer) (raw : String) (p : DocumentPredicate) (q : Query)
    (docs : List Document) (hq : PQ raw = .ok q)
    (hd : FindAllDocuments idf s q p = .ok docs) :
    ∃ out, FindTopDocuments PQ idf s raw p = .ok out ∧
      out.length = min 5 docs.length ∧ out.length ≤ 5 := by
  refine ⟨_, FindTopDocuments_of_ok PQ idf s raw p q docs hq hd, ?_⟩
  have hlen : ((StdSort.sort compareDocuments docs).take MAX_RESULT_DOCUMENT_COUNT).length
      = min 5 docs.length := by
    rw [List.length_take, StdSort.sort_length]; rfl
  exact ⟨hlen, by rw [hlen]; exact Nat.min_le_left _ _⟩

/-- Witness of C5: seven documents match "cat" on `sevenCats`, five are
returned. -/
theorem top_k_cap_witness :
    FindTopDocuments (Examples.parseAs "cat" Examples.catQuery) Examples.sevenCatsIdf
        Examples.sevenCats "cat" Examples.actualOnly
      = .ok [⟨7, 133531 / 1000000, 7⟩, ⟨6, 133531 / 2000000, 6⟩, ⟨5, 133531 / 3000000, 5⟩,
             ⟨4, 133531 / 4000000, 4⟩, ⟨3, 133531 / 5000000, 3⟩] ∧
    ∃ out, FindTopDocuments (Examples.parseAs "cat" Examples.catQuery) Examples.sevenCatsIdf
        Examples.sevenCats "cat" Examples.actualOnly = .ok out ∧
      out.length = min 5 7 ∧ out.length ≤ 5 :=
  ⟨by decide!,
    top_k_cap (Examples.parseAs "cat" Examples.catQuery) Examples.sevenCatsIdf
      Examples.sevenCats "cat" Examples.actualOnly Examples.catQuery
      [⟨1, 133531 / 7000000, 1⟩, ⟨2, 133531 / 6000000, 2⟩, ⟨3, 133531 / 5000000, 3⟩,
       ⟨4, 133531 / 4000000, 4⟩, ⟨5, 133531 / 3000000, 5⟩, ⟨6, 133531 / 2000000, 6⟩,
       ⟨7, 133531 / 1000000, 7⟩]
      (by decide!) (by decide!)⟩

/-- C6 as stated fails: on `risingServer` restricted to documents 1 and 2 the
two relevances are distinct, yet document 1, of lower relevance and higher
rating, is returned first. -/
theorem descending_distinct_counterexample :
    FindAllDocuments Examples.threeCatsIdf Examples.risingServer Examples.catQuery
        (Examples.onlyIds 1 2)
      = .ok [⟨1, 143841 / 301000000, 3⟩, ⟨2, 143841 / 300500000, 2⟩] ∧
    (143841 / 301000000 : ℚ) ≠ 143841 / 300500000 ∧
    FindTopDocuments (Examples.parseAs "cat" Examples.catQuery) Examples.threeCatsIdf
        Examples.risingServer "cat" (Examples.onlyIds 1 2)
      = .ok [⟨1, 143841 / 301000000, 3⟩, ⟨2, 143841 / 300500000, 2⟩] ∧
    ¬ ((143841 / 301000000 : ℚ) > 143841 / 300500000) := by
  refine ⟨by decide!, by decide!, by decide!, by decide!⟩

/-- C6 as amended: when the relevances of the records emitted by
`FindAllDocuments` are pairwise at least `1e-6` apart, `FindTopDocuments`
returns a sequence in strictly descending relevance order, whatever the
ratings are. -/
theorem descending_when_apart (PQ : String → Except Exn Query) (idf : String → ℚ)
    (s : SearchServer) (raw : String) (p : DocumentPredicate) (q : Query)
    (docs : List Document) (hq : PQ raw = .ok q)
    (hd : FindAllDocuments idf s q p = .ok docs)
    (hfar : docs.Pairwise (fun a b => accuracy ≤ |a.relevance - b.relevance|)) :
    ∃ out, FindTopDocuments PQ idf s raw p = .ok out ∧
      out.Pairwise (fun a b => a.relevance > b.relevance) :=
  ⟨_, FindTopDocuments_of_ok PQ idf s raw p q docs hq hd,
    (sort_descending_of_apart docs hfar).sublist (List.take_sublist _ _)⟩

/-- Witness of C6 as amended: the seven documents matching "cat" on
`sevenCats`. -/
theorem descending_when_apart_witness :
    FindTopDocuments (Examples.parseAs "cat" Examples.catQuery) Examples.sevenCatsIdf
        Examples.sevenCats "cat" Examples.actualOnly
      = .ok [⟨7, 133531 / 1000000, 7⟩, ⟨6, 133531 / 2000000, 6⟩, ⟨5, 133531 / 3000000, 5⟩,
             ⟨4, 133531 / 4000000, 4⟩, ⟨3, 133531 / 5000000, 3⟩] ∧
    ∃ out, FindTopDocuments (Examples.parseAs "cat" Examples.catQuery) Examples.sevenCatsIdf
        Examples.sevenCats "cat" Examples.actualOnly = .ok out ∧
      out.Pairwise (fun a b => a.relevance > b.relevance) :=
  ⟨by decide!,
    descending_when_apart (Examples.parseAs "cat" Examples.catQuery) Examples.sevenCatsIdf
      Examples.sevenCats "cat" Examples.actualOnly Examples.catQuery
      [⟨1, 133531 / 7000000, 1⟩, ⟨2, 133531 / 6000000, 2⟩, ⟨3, 133531 / 5000000, 3⟩,
       ⟨4, 133531 / 4000000, 4⟩, ⟨5, 133531 / 3000000, 5⟩, ⟨6, 133531 / 2000000, 6⟩,
       ⟨7, 133531 / 1000000, 7⟩]
      (by decide!) (by decide!) (by decide!)⟩

/-- C7, predicate filter: every record returned by `FindTopDocuments` belongs
to a document with stored metadata on which the predicate, evaluated on the id
and the stored status and rating, holds; a document on which it is false is
not returned. -/
theorem predicate_filter (PQ : String → Except Exn Query) (idf : String → ℚ)
    (s : SearchServer) (raw : String) (p : DocumentPredicate) (out : List Document)
    (h : FindTopDocuments PQ idf s raw p = .ok out) :
    (∀ r ∈ out, ∃ data, StdMap.find r.id s.documents_ = some data ∧
      p r.id data.status data.rating = true) ∧
    (∀ d data, StdMap.find d s.documents_ = some data → p d data.status data.rating = false →
      ∀ r ∈ out, r.id ≠ d) := by
  obtain ⟨q, docs, hq, hd, hout⟩ := FindTopDocuments_ok PQ idf s raw p out h
  obtain ⟨docs', hd', hsub⟩ := FindTopDocuments_subset PQ idf s raw p q out hq h
  have hpass : ∀ r ∈ out, passes s p r.id = true := fun r hr =>
    (FindAllDocuments_mem idf s q p docs' hd' r (hsub r hr)).1
  constructor
  · intro r hr
    have h1 := hpass r hr
    unfold passes at h1
    cases hf : StdMap.find r.id s.documents_ with
    | none => rw [hf] at h1; cases h1
    | some data => rw [hf] at h1; exact ⟨data, rfl, h1⟩
  · intro d data hf hp r hr hid
    have h1 := hpass r hr
    rw [hid, passes_of_find s p d data hf, hp] at h1
    cases h1

/-- Witness of C7: with the predicate "rating below 5" the query "cat" on the
server with documents 1 = "cat dog" (rating 5) and 2 = "cat" (rating 3)
returns document 2 only, although document 1 matches the plus-word. -/
theorem predicate_filter_witness :
    FindTopDocuments (Examples.parseAs "cat" Examples.catQuery) Examples.catDogIdf
        Examples.catDogServer "cat" (fun _ _ rating => decide (rating < 5))
      = .ok [⟨2, 0, 3⟩] ∧
    posted Examples.catDogServer "cat" 1 = true ∧
    ((∀ r ∈ [(⟨2, 0, 3⟩ : Document)], ∃ data,
        StdMap.find r.id Examples.catDogServer.documents_ = some data ∧
        (fun (_ : Int) (_ : DocumentStatus) (rating : Int) => decide (rating < 5))
          r.id data.status data.rating = true) ∧
      (∀ d data, StdMap.find d Examples.catDogServer.documents_ = some data →
        (fun (_ : Int) (_ : DocumentStatus) (rating : Int) => decide (rating < 5))
          d data.status data.rating = false →
        ∀ r ∈ [(⟨2, 0, 3⟩ : Document)], r.id ≠ d)) :=
  ⟨by decide!, by decide!,
    predicate_filter (Examples.parseAs "cat" Examples.catQuery) Examples.catDogIdf
      Examples.catDogServer "cat" (fun _ _ rating => decide (rating < 5)) [⟨2, 0, 3⟩]
      (by decide!)⟩

/-- C8 as stated fails: on the server with documents 1 = "cat dog" and
2 = "cat" the plus-words "cat" and "dog" return document 2 as well, which is
not in the postings of "dog". -/
theorem plus_word_containment_counterexample :
    FindTopDocuments (Examples.parseAs "cat dog" ⟨["cat", "dog"], []⟩) Examples.catDogIdf
        Examples.catDogServer "cat dog" Examples.actualOnly
      = .ok [⟨1, 693147 / 2000000, 5⟩, ⟨2, 0, 3⟩] ∧
    posted Examples.catDogServer "dog" 2 = false := by
  refine ⟨by decide!, by decide!⟩

/-- C8 as amended: every record returned by `FindTopDocuments` belongs to a
document that is in the inverted-index postings of at least one plus-word of
the parsed query. -/
theorem plus_word_containment (PQ : String → Except Exn Query) (idf : String → ℚ)
    (s : SearchServer) (raw : String) (p : DocumentPredicate) (q : Query)
    (out : List Document) (hq : PQ raw = .ok q)
    (h : FindTopDocuments PQ idf s raw p = .ok out) :
    ∀ r ∈ out, ∃ w ∈ q.plus_words, posted s w r.id = true := by
  obtain ⟨docs, hd, hsub⟩ := FindTopDocuments_subset PQ idf s raw p q out hq h
  intro r hr
  exact (FindAllDocuments_mem idf s q p docs hd r (hsub r hr)).2.1

/-- Witness of C8 as amended on the server with documents 1 = "cat dog" and
2 = "cat" and the plus-words "cat" and "dog". -/
theorem plus_word_containment_witness :
    FindTopDocuments (Examples.parseAs "cat dog" ⟨["cat", "dog"], []⟩) Examples.catDogIdf
        Examples.catDogServer "cat dog" Examples.actualOnly
      = .ok [⟨1, 693147 / 2000000, 5⟩, ⟨2, 0, 3⟩] ∧
    ∀ r ∈ [(⟨1, 693147 / 2000000, 5⟩ : Document), ⟨2, 0, 3⟩],
      ∃ w ∈ ["cat", "dog"], posted Examples.catDogServer w r.id = true :=
  ⟨by decide!,
    plus_word_containment (Examples.parseAs "cat dog" ⟨["cat", "dog"], []⟩) Examples.catDogIdf
      Examples.catDogServer "cat dog" Examples.actualOnly ⟨["cat", "dog"], []⟩
      [⟨1, 693147 / 2000000, 5⟩, ⟨2, 0, 3⟩] (by decide!) (by decide!)⟩

/-- C9 as stated fails: after document 2 and then document 1 are added to a
new server, the traversal from `begin()` to `end()` yields 1 and then 2. -/
theorem iteration_order_counterexample :
    Except.map traverse Examples.twoThenOne = .ok [1, 2] ∧ ([1, 2] : List Int) ≠ [2, 1] := by
  refine ⟨by decide!, by decide⟩

/-- C9 as amended: after any sequence of successful additions to a newly
constructed server, the traversal from `begin()` to `end()` yields exactly the
added ids, each once, in ascending order of the id. -/
theorem iteration_order (stop_words : List String) (s0 s : SearchServer)
    (additions : List Addition) (h0 : SearchServer.new stop_words = .ok s0)
    (h : addAll s0 additions = .ok s) :
    (traverse s).Pairwise (fun a b => a < b) ∧
      (traverse s).Perm (additions.map (fun a => a.document_id)) := by
  have hs0 := new_ok stop_words s0 h0
  have hinv : IdsConsistent s0 := by
    rw [hs0]; exact ⟨List.Pairwise.nil, by intro x; simp [StdMap.keys]⟩
  obtain ⟨hres, hperm⟩ := addAll_ids additions s0 s hinv h
  refine ⟨hres.1, ?_⟩
  have hempty : s0.document_ids_ = [] := by rw [hs0]
  rw [hempty, List.append_nil] at hperm
  exact hperm

/-- Witness of C9 as amended: documents 2 and 1 added in this order. -/
theorem iteration_order_witness :
    SearchServer.new [] = .ok Examples.emptyServer ∧
    addAll Examples.emptyServer [⟨2, "dog", .ACTUAL, [3]⟩, ⟨1, "cat", .ACTUAL, [5]⟩]
      = .ok Examples.catAndDog ∧
    traverse Examples.catAndDog = [1, 2] ∧
    (traverse Examples.catAndDog).Pairwise (fun a b => a < b) ∧
    (traverse Examples.catAndDog).Perm [2, 1] :=
  ⟨by decide!, by decide!, by decide!,
   iteration_order [] Examples.emptyServer Examples.catAndDog
     [⟨2, "dog", .ACTUAL, [3]⟩, ⟨1, "cat", .ACTUAL, [5]⟩] (by decide!) (by decide!)⟩

/-- C10, stop-word validation: the constructor fails with `invalid_argument`
exactly when some non-empty word of the collection is rejected by
`IsValidWord`; otherwise it succeeds and the stop-word set holds exactly the
non-empty words of the collection, each once. -/
theorem stop_word_validation (stop_words : List String) :
    (SearchServer.new stop_words = .error Exn.invalid_argument ↔
      ∃ w ∈ stop_words, w ≠ "" ∧ IsValidWord w = false) ∧
    ((¬ ∃ w ∈ stop_words, w ≠ "" ∧ IsValidWord w = false) →
      ∃ s, SearchServer.new stop_words = .ok s ∧ s.stop_words_.Nodup ∧
        ∀ w, w ∈ s.stop_words_ ↔ (w ∈ stop_words ∧ w ≠ "")) := by
  have hiff := all_valid_iff stop_words
  constructor
  · constructor
    · intro h
      by_contra hno
      have hall := hiff.2 hno
      unfold SearchServer.new at h
      simp only [hall, not_true_eq_false, if_false] at h
      cases h
    · intro hbad
      have hall : ¬ (MakeUniqueNonEmptyStrings stop_words).all IsValidWord = true :=
        fun h => (hiff.1 h) hbad
      unfold SearchServer.new
      simp only [hall, not_false_eq_true, if_true]
      rfl
  · intro hno
    have hall := hiff.2 hno
    refine ⟨{ stop_words_ := MakeUniqueNonEmptyStrings stop_words
              word_to_document_freqs_ := []
              document_to_word_freqs_ := []
              documents_ := []
              document_ids_ := [] }, ?_, ?_, ?_⟩
    · unfold SearchServer.new
      simp only [hall, not_true_eq_false, if_false]
    · exact (MakeUniqueNonEmptyStrings_pairwise stop_words).imp (fun h => ne_of_lt h)
    · intro w
      exact mem_MakeUniqueNonEmptyStrings stop_words w

/-- Witness of C10: the collection "in", "the", "", "in" is accepted and gives
the stop words "in" and "the"; a collection with a word holding the control
character 0x01 is refused. -/
theorem stop_word_validation_witness :
    SearchServer.new ["the", "in", "", "in"] = .ok ⟨["in", "the"], [], [], [], []⟩ ∧
    SearchServer.new ["in", "a\x01b"] = .error Exn.invalid_argument ∧
    ∃ s, SearchServer.new ["the", "in", "", "in"] = .ok s ∧ s.stop_words_.Nodup ∧
      ∀ w, w ∈ s.stop_words_ ↔ (w ∈ ["the", "in", "", "in"] ∧ w ≠ "") :=
  ⟨by decide!,
    (stop_word_validation ["in", "a\x01b"]).1.2 ⟨"a\x01b", by decide, by decide, by decide!⟩,
    (stop_word_validation ["the", "in", "", "in"]).2 (by decide!)⟩

/-- C11, stop-word set invariant: every member of the stop-word set of a
successfully constructed server, from a collection or from a text, holds no
whitespace character and no control character (code below 0x20); a collection
with a non-empty word that holds a whitespace character, such as "in the", is
refused with `invalid_argument`. -/
theorem stop_word_set_invariant :
    (∀ stop_words s, SearchServer.new stop_words = .ok s →
      ∀ w ∈ s.stop_words_, ∀ c ∈ w.data, c.isWhitespace = false ∧ ¬ c.toNat < 32) ∧
    (∀ text s, newFromText text = .ok s →
      ∀ w ∈ s.stop_words_, ∀ c ∈ w.data, c.isWhitespace = false ∧ ¬ c.toNat < 32) ∧
    (∀ stop_words : List String,
      (∃ w ∈ stop_words, ∃ c ∈ w.data, c.isWhitespace = true) →
      SearchServer.new stop_words = .error Exn.invalid_argument) ∧
    SearchServer.new ["in the"] = .error Exn.invalid_argument := by
  have hcont : ∀ stop_words s, SearchServer.new stop_words = .ok s →
      ∀ w ∈ s.stop_words_, ∀ c ∈ w.data, c.isWhitespace = false ∧ ¬ c.toNat < 32 := by
    intro stop_words s h w hw
    obtain ⟨hs, hall⟩ := new_ok_valid stop_words s h
    rw [hs] at hw
    exact IsValidWord_chars w (List.all_eq_true.1 hall w hw)
  have hrej : ∀ stop_words : List String,
      (∃ w ∈ stop_words, ∃ c ∈ w.data, c.isWhitespace = true) →
      SearchServer.new stop_words = .error Exn.invalid_argument := by
    rintro stop_words ⟨w, hw, c, hc, hws⟩
    have hne : w ≠ "" := by
      rintro rfl
      simp at hc
    exact new_error_of_invalid stop_words w hw hne (IsValidWord_of_whitespace w c hc hws)
  refine ⟨hcont, ?_, hrej, ?_⟩
  · intro text s h
    unfold newFromText at h
    exact hcont _ s h
  · exact hrej ["in the"] ⟨"in the", by simp, ' ', by decide, by decide⟩

/-- Witness of C11: the stop words of the server constructed from the text
"in  the in" are "in" and "the"; the collection holding "in the" is refused. -/
theorem stop_word_set_invariant_witness :
    newFromText "in  the in" = .ok ⟨["in", "the"], [], [], [], []⟩ ∧
    (∀ w ∈ ["in", "the"], ∀ c ∈ w.data, c.isWhitespace = false ∧ ¬ c.toNat < 32) ∧
    SearchServer.new ["of", "in the"] = .error Exn.invalid_argument :=
  ⟨by decide!,
    stop_word_set_invariant.2.1 "in  the in" ⟨["in", "the"], [], [], [], []⟩ (by decide!),
    stop_word_set_invariant.2.2.1 ["of", "in the"]
      ⟨"in the", by simp, ' ', by decide, by decide⟩⟩

/-- C12, completeness of matching: when every posted document id has metadata,
`FindAllDocuments` returns, no id is emitted twice, and a document is emitted
exactly when some plus-word of the query posts it, the predicate holds on it
and no minus-word of the query posts it, whatever its summed relevance is. -/
theorem matching_complete (idf : String → ℚ) (s : SearchServer) (q : Query)
    (p : DocumentPredicate) (hmeta : PostedHaveMetadata s) :
    ∃ docs, FindAllDocuments idf s q p = .ok docs ∧
      (docs.map (fun r => r.id)).Nodup ∧
      ∀ d, d ∈ docs.map (fun r => r.id) ↔
        ((∃ w ∈ q.plus_words, posted s w d = true) ∧ passes s p d = true ∧
          ∀ w ∈ q.minus_words, posted s w d = false) := by
  obtain ⟨docs, hdocs⟩ := FindAllDocuments_total idf s q p hmeta
  obtain ⟨hasc, hiff⟩ := FindAllDocuments_ids idf s q p docs hdocs
  refine ⟨docs, hdocs, hasc.imp (fun h => ne_of_lt h), ?_⟩
  intro d
  rw [hiff d]
  tauto

/-- Witness of C12: on the server with documents 1 = "cat dog" and 2 = "cat"
the word "cat" has inverse document frequency 0, and both documents are
emitted once, with relevance 0. -/
theorem matching_complete_witness :
    FindAllDocuments Examples.catDogIdf Examples.catDogServer Examples.catQuery
        Examples.actualOnly = .ok [⟨1, 0, 5⟩, ⟨2, 0, 3⟩] ∧
    ∃ docs, FindAllDocuments Examples.catDogIdf Examples.catDogServer Examples.catQuery
        Examples.actualOnly = .ok docs ∧
      (docs.map (fun r => r.id)).Nodup ∧
      ∀ d, d ∈ docs.map (fun r => r.id) ↔
        ((∃ w ∈ Examples.catQuery.plus_words, posted Examples.catDogServer w d = true) ∧
          passes Examples.catDogServer Examples.actualOnly d = true ∧
          ∀ w ∈ Examples.catQuery.minus_words, posted Examples.catDogServer w d = false) :=
  ⟨by decide!,
    matching_complete Examples.catDogIdf Examples.catDogServer Examples.catQuery
      Examples.actualOnly (by decide!)⟩

/-- C13, top-5 selection: when the relevances of the records emitted by
`FindAllDocuments` are pairwise at least `1e-6` apart, `FindTopDocuments`
returns `min 5 n` of them in strictly descending relevance order, and every
emitted record that is not returned has a relevance strictly below that of
every returned one. -/
theorem top_five_selection (PQ : String → Except Exn Query) (idf : String → ℚ)
    (s : SearchServer) (raw : String) (p : DocumentPredicate) (q : Query)
    (docs : List Document) (hq : PQ raw = .ok q)
    (hd : FindAllDocuments idf s q p = .ok docs)
    (hfar : docs.Pairwise (fun a b => accuracy ≤ |a.relevance - b.relevance|)) :
    ∃ out, FindTopDocuments PQ idf s raw p = .ok out ∧
      out.length = min 5 docs.length ∧
      out.Pairwise (fun a b => a.relevance > b.relevance) ∧
      (∀ r ∈ out, r ∈ docs) ∧
      ∀ e ∈ docs, e ∉ out → ∀ r ∈ out, e.relevance < r.relevance := by
  refine ⟨_, FindTopDocuments_of_ok PQ idf s raw p q docs hq hd, ?_, ?_, ?_, ?_⟩
  · rw [List.length_take, StdSort.sort_length]; rfl
  · exact (sort_descending_of_apart docs hfar).sublist (List.take_sublist _ _)
  · intro r hr
    exact (StdSort.mem_sort compareDocuments docs r).1 (List.mem_of_mem_take hr)
  · intro e he hnot r hr
    have hdesc := sort_descending_of_apart docs hfar
    rw [← List.take_append_drop MAX_RESULT_DOCUMENT_COUNT (StdSort.sort compareDocuments docs),
      List.pairwise_append] at hdesc
    have hmem : e ∈ StdSort.sort compareDocuments docs :=
      (StdSort.mem_sort compareDocuments docs e).2 he
    rw [← List.take_append_drop MAX_RESULT_DOCUMENT_COUNT (StdSort.sort compareDocuments docs),
      List.mem_append] at hmem
    rcases hmem with h1 | h1
    · exact absurd h1 hnot
    · exact hdesc.2.2 r hr e h1

/-- Witness of C13: of the seven documents matching "cat" on `sevenCats` the
five of highest relevance are returned. -/
theorem top_five_selection_witness :
    FindTopDocuments (Examples.parseAs "cat" Examples.catQuery) Examples.sevenCatsIdf
        Examples.sevenCats "cat" Examples.actualOnly
      = .ok [⟨7, 133531 / 1000000, 7⟩, ⟨6, 133531 / 2000000, 6⟩, ⟨5, 133531 / 3000000, 5⟩,
             ⟨4, 133531 / 4000000, 4⟩, ⟨3, 133531 / 5000000, 3⟩] ∧
    ∃ out, FindTopDocuments (Examples.parseAs "cat" Examples.catQuery) Examples.sevenCatsIdf
        Examples.sevenCats "cat" Examples.actualOnly = .ok out ∧
      out.length = min 5 7 ∧
      out.Pairwise (fun a b => a.relevance > b.relevance) ∧
      (∀ r ∈ out, r ∈ [(⟨1, 133531 / 7000000, 1⟩ : Document), ⟨2, 133531 / 6000000, 2⟩,
          ⟨3, 133531 / 5000000, 3⟩, ⟨4, 133531 / 4000000, 4⟩, ⟨5, 133531 / 3000000, 5⟩,
          ⟨6, 133531 / 2000000, 6⟩, ⟨7, 133531 / 1000000, 7⟩]) ∧
      ∀ e ∈ [(⟨1, 133531 / 7000000, 1⟩ : Document), ⟨2, 133531 / 6000000, 2⟩,
          ⟨3, 133531 / 5000000, 3⟩, ⟨4, 133531 / 4000000, 4⟩, ⟨5, 133531 / 3000000, 5⟩,
          ⟨6, 133531 / 2000000, 6⟩, ⟨7, 133531 / 1000000, 7⟩],
        e ∉ out → ∀ r ∈ out, e.relevance < r.relevance :=
  ⟨by decide!,
    top_five_selection (Examples.parseAs "cat" Examples.catQuery) Examples.sevenCatsIdf
      Examples.sevenCats "cat" Examples.actualOnly Examples.catQuery
      [⟨1, 133531 / 7000000, 1⟩, ⟨2, 133531 / 6000000, 2⟩, ⟨3, 133531 / 5000000, 3⟩,
       ⟨4, 133531 / 4000000, 4⟩, ⟨5, 133531 / 3000000, 5⟩, ⟨6, 133531 / 2000000, 6⟩,
       ⟨7, 133531 / 1000000, 7⟩]
      (by decide!) (by decide!) (by decide!)⟩

/-- C15, absent words are inert: inserting into the plus-words or into the
minus-words of a query a word that is not a key of the inverted index leaves
the result of `FindAllDocuments`, and so that of `FindTopDocuments`, unchanged;
a query whose plus-words are all absent from the index has an empty result. -/
theorem absent_words_inert (idf : String → ℚ) (s : SearchServer) (p : DocumentPredicate) :
    (∀ (q : Query) (w : String), StdMap.find w s.word_to_document_freqs_ = none →
      FindAllDocuments idf s ⟨StdMap.setInsert w q.plus_words, q.minus_words⟩ p
          = FindAllDocuments idf s q p ∧
      FindAllDocuments idf s ⟨q.plus_words, StdMap.setInsert w q.minus_words⟩ p
          = FindAllDocuments idf s q p) ∧
    (∀ (PQ PQ' : String → Except Exn Query) (raw raw' : String) (q : Query) (w : String),
      StdMap.find w s.word_to_document_freqs_ = none → PQ raw = .ok q →
      (PQ' raw' = .ok ⟨StdMap.setInsert w q.plus_words, q.minus_words⟩ ∨
        PQ' raw' = .ok ⟨q.plus_words, StdMap.setInsert w q.minus_words⟩) →
      FindTopDocuments PQ' idf s raw' p = FindTopDocuments PQ idf s raw p) ∧
    (∀ q : Query, (∀ w ∈ q.plus_words, StdMap.find w s.word_to_document_freqs_ = none) →
      FindAllDocuments idf s q p = .ok [] ∧
      ∀ (PQ : String → Except Exn Query) (raw : String), PQ raw = .ok q →
        FindTopDocuments PQ idf s raw p = .ok []) := by
  have hins : ∀ (l : List String) (w : String),
      StdMap.find w s.word_to_document_freqs_ = none →
      (StdMap.setInsert w l).filter
          (fun w => (StdMap.find w s.word_to_document_freqs_).isSome)
        = l.filter (fun w => (StdMap.find w s.word_to_document_freqs_).isSome) := by
    intro l w hw
    exact StdMap.filter_setInsert_absent _ w (by simp [hw]) l
  have hall : ∀ (q : Query) (w : String), StdMap.find w s.word_to_document_freqs_ = none →
      FindAllDocuments idf s ⟨StdMap.setInsert w q.plus_words, q.minus_words⟩ p
          = FindAllDocuments idf s q p ∧
      FindAllDocuments idf s ⟨q.plus_words, StdMap.setInsert w q.minus_words⟩ p
          = FindAllDocuments idf s q p := by
    intro q w hw
    exact ⟨FindAllDocuments_congr idf s q _ p (hins q.plus_words w hw) rfl,
      FindAllDocuments_congr idf s q _ p rfl (hins q.minus_words w hw)⟩
  refine ⟨hall, ?_, ?_⟩
  · intro PQ PQ' raw raw' q w hw hq hq'
    rcases hq' with hq' | hq'
    · exact FindTopDocuments_congr PQ PQ' idf s raw raw' p q _ hq hq' (hall q w hw).1
    · exact FindTopDocuments_congr PQ PQ' idf s raw raw' p q _ hq hq' (hall q w hw).2
  · intro q habs
    have hempty : q.plus_words.filter
        (fun w => (StdMap.find w s.word_to_document_freqs_).isSome) = [] := by
      rw [List.filter_eq_nil_iff]
      intro w hw
      simp [habs w hw]
    have hfind : FindAllDocuments idf s q p = .ok [] := by
      rw [FindAllDocuments_congr idf s ⟨[], q.minus_words⟩ q p (by simpa using hempty) rfl]
      unfold FindAllDocuments
      simp only [scorePlusWords]
      rw [eraseMinusWords_nil]
      rfl
    refine ⟨hfind, ?_⟩
    intro PQ raw hq
    rw [FindTopDocuments_of_ok PQ idf s raw p q [] hq hfind]
    rfl

/-- Witness of C15 on the server with documents 1 = "cat dog" and 2 = "cat":
the word "emu" is absent from the index. -/
theorem absent_words_inert_witness :
    StdMap.setInsert "emu" Examples.catMinusDog.plus_words = ["cat", "emu"] ∧
    FindAllDocuments Examples.catDogIdf Examples.catDogServer ⟨["cat", "emu"], ["dog"]⟩
        Examples.actualOnly = .ok [⟨2, 0, 3⟩] ∧
    (FindAllDocuments Examples.catDogIdf Examples.catDogServer
        ⟨StdMap.setInsert "emu" Examples.catMinusDog.plus_words,
          Examples.catMinusDog.minus_words⟩ Examples.actualOnly
      = FindAllDocuments Examples.catDogIdf Examples.catDogServer Examples.catMinusDog
          Examples.actualOnly ∧
      FindAllDocuments Examples.catDogIdf Examples.catDogServer
        ⟨Examples.catMinusDog.plus_words,
          StdMap.setInsert "emu" Examples.catMinusDog.minus_words⟩ Examples.actualOnly
      = FindAllDocuments Examples.catDogIdf Examples.catDogServer Examples.catMinusDog
          Examples.actualOnly) ∧
    FindAllDocuments Examples.catDogIdf Examples.catDogServer ⟨["emu"], []⟩
        Examples.actualOnly = .ok [] :=
  ⟨by decide!, by decide!,
    (absent_words_inert Examples.catDogIdf Examples.catDogServer Examples.actualOnly).1
      Examples.catMinusDog "emu" (by decide!),
    ((absent_words_inert Examples.catDogIdf Examples.catDogServer Examples.actualOnly).2.2
      ⟨["emu"], []⟩ (by decide!)).1⟩

/-- C16, lookup safety: when every document id occurring in a posting list of
the inverted index is a key of `documents_`, `FindAllDocuments` returns for
every query and predicate, and so does `FindTopDocuments` once the query is
parsed: no checked lookup fails. -/
theorem lookup_safety (s : SearchServer) (hmeta : PostedHaveMetadata s) :
    (∀ (idf : String → ℚ) (q : Query) (p : DocumentPredicate),
      ∃ docs, FindAllDocuments idf s q p = .ok docs) ∧
    (∀ (PQ : String → Except Exn Query) (idf : String → ℚ) (raw : String) (q : Query)
        (p : DocumentPredicate), PQ raw = .ok q →
      ∃ out, FindTopDocuments PQ idf s raw p = .ok out) := by
  constructor
  · intro idf q p
    exact FindAllDocuments_total idf s q p hmeta
  · intro PQ idf raw q p hq
    obtain ⟨docs, hdocs⟩ := FindAllDocuments_total idf s q p hmeta
    exact ⟨_, FindTopDocuments_of_ok PQ idf s raw p q docs hq hdocs⟩

/-- Witness of C16: the invariant holds on the server with documents
1 = "cat dog" and 2 = "cat"; on `orphanServer`, where it does not, the lookup
of document 9 fails. -/
theorem lookup_safety_witness :
    PostedHaveMetadata Examples.catDogServer ∧
    ¬ PostedHaveMetadata Examples.orphanServer ∧
    FindAllDocuments Examples.catDogIdf Examples.orphanServer Examples.catQuery
        Examples.actualOnly = .error Exn.out_of_range ∧
    ((∀ (idf : String → ℚ) (q : Query) (p : DocumentPredicate),
        ∃ docs, FindAllDocuments idf Examples.catDogServer q p = .ok docs) ∧
      (∀ (PQ : String → Except Exn Query) (idf : String → ℚ) (raw : String) (q : Query)
          (p : DocumentPredicate), PQ raw = .ok q →
        ∃ out, FindTopDocuments PQ idf Examples.catDogServer raw p = .ok out)) :=
  ⟨by decide!, by decide!, by decide!, lookup_safety Examples.catDogServer (by decide!)⟩

/-- C17, predicate independence of scores: when every posting list holds each
document id once and every posted id has metadata, and the predicate `p`
implies the predicate `p'` on every stored document, both runs of
`FindAllDocuments` return, every record emitted under `p` is emitted under
`p'` with the same id, relevance and rating, and records of the two results
with the same id agree in relevance and rating. -/
theorem predicate_independence (idf : String → ℚ) (s : SearchServer) (q : Query)
    (p p' : DocumentPredicate) (hnd : PostingsDistinct s) (hmeta : PostedHaveMetadata s)
    (himp : ∀ d, passes s p d = true → passes s p' d = true) :
    ∃ docs docs', FindAllDocuments idf s q p = .ok docs ∧
      FindAllDocuments idf s q p' = .ok docs' ∧
      (∀ r ∈ docs, r ∈ docs') ∧
      ∀ r ∈ docs, ∀ r' ∈ docs', r.id = r'.id →
        r.relevance = r'.relevance ∧ r.rating = r'.rating := by
  obtain ⟨docs, acc, hrun, hasc, hmap, hrat, hfind⟩ := FindAllDocuments_spec idf s q p hnd hmeta
  obtain ⟨docs', acc', hrun', hasc', hmap', hrat', hfind'⟩ :=
    FindAllDocuments_spec idf s q p' hnd hmeta
  have hsub : ∀ r ∈ docs, r ∈ docs' := by
    intro r hr
    have hmem : (r.id, r.relevance) ∈ acc := by
      rw [← hmap]; exact List.mem_map.2 ⟨r, hr, rfl⟩
    have hf := StdMap.find_of_mem_nodup _ _ _ hasc.nodup hmem
    rw [hfind r.id] at hf
    split at hf
    · rename_i hcond
      have hcond' : (passes s p' r.id = true ∧ ∃ w ∈ q.plus_words, posted s w r.id = true) ∧
          ¬ ∃ w ∈ q.minus_words, posted s w r.id = true :=
        ⟨⟨himp r.id hcond.1.1, hcond.1.2⟩, hcond.2⟩
      have hf' := hfind' r.id
      rw [if_pos hcond', hf] at hf'
      have hmem' := StdMap.find_some_mem _ _ _ hf'
      rw [← hmap'] at hmem'
      obtain ⟨r', hr', heq⟩ := List.mem_map.1 hmem'
      simp only [Prod.mk.injEq] at heq
      obtain ⟨data, hdata, hrating⟩ := hrat r hr
      obtain ⟨data', hdata', hrating'⟩ := hrat' r' hr'
      rw [heq.1, hdata] at hdata'
      simp only [Option.some.injEq] at hdata'
      have : r' = r := by
        cases r; cases r'
        simp only at heq hrating hrating'
        simp only [Document.mk.injEq]
        exact ⟨heq.1, heq.2, by rw [hrating', hrating, hdata']⟩
      rw [← this]; exact hr'
    · cases hf
  refine ⟨docs, docs', hrun, hrun', hsub, ?_⟩
  intro r hr r' hr' hid
  have hnd' : (docs'.map (fun r => r.id)).Nodup := by
    have h1 : docs'.map (fun r => r.id) = StdMap.keys acc' := by
      rw [← hmap']; simp [StdMap.keys, List.map_map, Function.comp_def]
    rw [h1]; exact hasc'.nodup
  have := record_eq_of_id_of_nodup docs' hnd' r r' (hsub r hr) hr' hid
  rw [this]
  exact ⟨rfl, rfl⟩

/-- Witness of C17 on the server with documents 1 = "cat dog" and 2 = "cat":
the predicate "rating below 5" implies the predicate "status is ACTUAL". -/
theorem predicate_independence_witness :
    FindAllDocuments Examples.catDogIdf Examples.catDogServer ⟨["cat", "dog"], []⟩
        (fun _ _ rating => decide (rating < 5)) = .ok [⟨2, 0, 3⟩] ∧
    FindAllDocuments Examples.catDogIdf Examples.catDogServer ⟨["cat", "dog"], []⟩
        Examples.actualOnly = .ok [⟨1, 693147 / 2000000, 5⟩, ⟨2, 0, 3⟩] ∧
    ∃ docs docs', FindAllDocuments Examples.catDogIdf Examples.catDogServer
        ⟨["cat", "dog"], []⟩ (fun _ _ rating => decide (rating < 5)) = .ok docs ∧
      FindAllDocuments Examples.catDogIdf Examples.catDogServer ⟨["cat", "dog"], []⟩
        Examples.actualOnly = .ok docs' ∧
      (∀ r ∈ docs, r ∈ docs') ∧
      ∀ r ∈ docs, ∀ r' ∈ docs', r.id = r'.id →
        r.relevance = r'.relevance ∧ r.rating = r'.rating :=
  ⟨by decide!, by decide!,
    predicate_independence Examples.catDogIdf Examples.catDogServer ⟨["cat", "dog"], []⟩
      (fun _ _ rating => decide (rating < 5)) Examples.actualOnly (by decide!) (by decide!)
      (by
        intro d hd
        unfold passes at hd ⊢
        cases hf : StdMap.find d Examples.catDogServer.documents_ with
        | none => rw [hf] at hd; cases hd
        | some data =>
          have hmem := StdMap.find_some_mem _ _ _ hf
          have hall : ∀ e ∈ Examples.catDogServer.documents_,
              Examples.actualOnly e.1 e.2.status e.2.rating = true := by decide!
          exact hall _ hmem)⟩

/-- C18, ranking only reorders and drops: the sequence returned by
`FindTopDocuments` holds no document id twice, each of its records is a record
emitted by `FindAllDocuments` for the same query and predicate, and when at
most 5 records are emitted the returned sequence is a permutation of them. -/
theorem ranking_reorders_and_drops (PQ : String → Except Exn Query) (idf : String → ℚ)
    (s : SearchServer) (raw : String) (p : DocumentPredicate) (q : Query)
    (out : List Document) (hq : PQ raw = .ok q)
    (h : FindTopDocuments PQ idf s raw p = .ok out) :
    ∃ docs, FindAllDocuments idf s q p = .ok docs ∧
      (out.map (fun r => r.id)).Nodup ∧
      (∀ r ∈ out, r ∈ docs) ∧
      (docs.length ≤ 5 → out.Perm docs) := by
  obtain ⟨q', docs, hq', hd, hout⟩ := FindTopDocuments_ok PQ idf s raw p out h
  rw [hq] at hq'
  cases hq'
  have hperm := StdSort.sort_perm compareDocuments docs
  have hids := (FindAllDocuments_ids idf s q p docs hd).1
  have hnd : (docs.map (fun r => r.id)).Nodup := hids.imp (fun h => ne_of_lt h)
  have hnds : ((StdSort.sort compareDocuments docs).map (fun r => r.id)).Nodup :=
    ((hperm.map _).nodup_iff).2 hnd
  refine ⟨docs, hd, ?_, ?_, ?_⟩
  · rw [hout]
    exact hnds.sublist ((List.take_sublist _ _).map _)
  · intro r hr
    rw [hout] at hr
    exact hperm.mem_iff.1 (List.mem_of_mem_take hr)
  · intro hlen
    rw [hout, List.take_of_length_le]
    · exact hperm
    · rw [StdSort.sort_length]; exact hlen

/-- Witness of C18: the two records matched on `risingServer` by the documents
1 and 3 are returned in the opposite order. -/
theorem ranking_reorders_and_drops_witness :
    FindTopDocuments (Examples.parseAs "cat" Examples.catQuery) Examples.threeCatsIdf
        Examples.risingServer "cat" (Examples.onlyIds 1 3)
      = .ok [⟨3, 47947 / 100000000, 1⟩, ⟨1, 143841 / 301000000, 3⟩] ∧
    ∃ docs, FindAllDocuments Examples.threeCatsIdf Examples.risingServer Examples.catQuery
        (Examples.onlyIds 1 3) = .ok docs ∧
      (([⟨3, 47947 / 100000000, 1⟩, ⟨1, 143841 / 301000000, 3⟩] : List Document).map
        (fun r => r.id)).Nodup ∧
      (∀ r ∈ ([⟨3, 47947 / 100000000, 1⟩, ⟨1, 143841 / 301000000, 3⟩] : List Document),
        r ∈ docs) ∧
      (docs.length ≤ 5 →
        ([⟨3, 47947 / 100000000, 1⟩, ⟨1, 143841 / 301000000, 3⟩] : List Document).Perm docs) :=
  ⟨by decide!,
    ranking_reorders_and_drops (Examples.parseAs "cat" Examples.catQuery)
      Examples.threeCatsIdf Examples.risingServer "cat" (Examples.onlyIds 1 3)
      Examples.catQuery [⟨3, 47947 / 100000000, 1⟩, ⟨1, 143841 / 301000000, 3⟩]
      (by decide!) (by decide!)⟩
